import Mathlib

/-!
# machination: the Turing-machine runtime `mtruntime.c`

A shallow embedding of `main` of `src/mtruntime.c`: argument handling, the
construction of the tape, the `do ... while (direction != FINAL)` step loop
and the final print.

Conventions of the embedding.

* A `char` is a byte, `Symbol = Fin 256`; symbols are only copied and compared
  for equality, never used in arithmetic.
* `head` and `max_head` are `ssize_t`, `state`, `direction` and the integer
  fields of a rule are `int`: all are `Int` here (the only arithmetic is
  `head += direction`, far from any overflow for heads inside the tape).
* The tape is the memory reachable from the pointer `tape`, a function from
  offsets to bytes. Offsets `0 .. TAPE_LENGTH - 1` are the allocated block;
  an access outside it is undefined in C, and the results below concern runs
  that stay inside: inputs of at most `TAPE_LENGTH - 2` symbols, and heads
  that `step_running_head` keeps in range whenever a step is executed.
* A command-line argument is a C string, given as the list of its bytes
  before the terminator, so a list without the zero byte.
* What the program prints on the standard output is recorded as a list of
  print events (`Printed`), one per group of `printf` calls; the exact
  characters of the verbose trace are not modelled, its contents are.
* The header `rules.h` is not among the sources. The rule table `rules` and
  the sentinel `EOT` are parameters; `NUL`, `FINAL`, `LEFT` and `RIGHT` are
  fixed as the specification describes them.
-/

namespace Machination

/-- A tape symbol: one `char`. -/
abbrev Symbol := Fin 256

/-- The constant `#define TAPE_LENGTH 1024`. -/
def TAPE_LENGTH : Int := 1024

/-- Modelled from the spec: `NUL` of the missing `rules.h`, the blank symbol,
"the tape's rest state": the value `calloc` leaves in every cell and the byte
at which `printf("%s")` stops, so the zero byte. -/
def NUL : Symbol := 0

/-- Modelled from the spec: `FINAL` of the missing `rules.h`, the direction
Halt, "a numeric step of zero folded into head arithmetic". -/
def FINAL : Int := 0

/-- Modelled from the spec: the direction Left of the missing `rules.h`,
which "advances head by −1". -/
def LEFT : Int := -1

/-- Modelled from the spec: the direction Right of the missing `rules.h`,
which "advances head by +1". -/
def RIGHT : Int := 1

/-- Modelled from the spec: `struct rule` of the missing `rules.h`, with the
field names `main` uses: `(state, read) → (write, dir, destination)`. -/
structure rule where
  state : Int
  read : Symbol
  write : Symbol
  dir : Int
  destination : Int
deriving DecidableEq, Repr

/-- The memory behind the pointer `tape`, by offset. -/
abbrev Tape := Int → Symbol

/-- The assignment `tape[pos] = c`. -/
def write (tape : Tape) (pos : Int) (c : Symbol) : Tape :=
  fun i => if i = pos then c else tape i

/-- The result of `calloc(TAPE_LENGTH, sizeof (char))`: every byte zero. -/
def calloc : Tape := fun _ => 0

/-- The call `strcpy(tape + pos, src)` for a C string whose bytes before the
terminator are `src`: the bytes are copied in order, then the terminating
zero byte. -/
def strcpy (tape : Tape) (pos : Int) : List Symbol → Tape
  | [] => write tape pos 0
  | c :: cs => strcpy (write tape pos c) (pos + 1) cs

/-- The bytes `printf("%s", tape + pos)` prints: the cells from `pos` up to
the first zero byte. `fuel` is the number of cells left in the allocated
block; `none` when no zero byte is met inside it (the C code would read past
the allocation). -/
def cstring (tape : Tape) : Nat → Int → Option (List Symbol)
  | 0, _ => none
  | fuel + 1, pos =>
    if tape pos = 0 then some []
    else (cstring tape fuel (pos + 1)).map (fun s => tape pos :: s)

/-- The fatal conditions of `main`, each a diagnostic on the error stream
followed by `return 1`, with the values the diagnostic prints. -/
inductive Failure where
  | MissingInput
  | NoMatchingRule (state : Int) (symbol : Symbol)
  | HeadUnderflow (state : Int)
  | HeadOverflow (state : Int)
deriving DecidableEq, Repr

/-- What `main` prints on the standard output, one event per group of
`printf` calls. -/
inductive Printed where
  /-- The help text. -/
  | Usage
  /-- Verbose, lines 56-71: the cells `tape[0 .. max_head]`, the head
  position and the state. -/
  | TapeTrace (cells : List Symbol) (head : Int) (state : Int)
  /-- Verbose, lines 91-105: the index of the applied rule and the rule. -/
  | RuleTrace (i : Nat) (r : rule)
  /-- Verbose, line 137: the text `Output: `. -/
  | OutputLabel
  /-- Line 138, `printf("%s\n", tape + 1)`: the final tape region; `none`
  when the string is not terminated inside the tape. -/
  | Output (region : Option (List Symbol))
deriving DecidableEq, Repr

/-- The local variables of `main` that the step loop reads and writes,
together with what has been printed so far. -/
structure Machine where
  tape : Tape
  head : Int
  max_head : Int
  direction : Int
  state : Int
  stdout : List Printed

/-- The engine: `Running` while the loop goes on, `Halted` when the loop
condition `direction != FINAL` fails, `Failed` on a `return 1` inside the
loop. The machine is the one at that point. -/
inductive Engine where
  | Running (m : Machine)
  | Halted (m : Machine)
  | Failed (reason : Failure) (m : Machine)

/-- The constant `RULES_SIZE`: the number of entries of `rules`. -/
def RULES_SIZE (rules : List rule) : Nat := rules.length

/-- The lookup loop, lines 73-78:
`for (; i < RULES_SIZE; ++i) if (rules[i].state == state && rules[i].read == tape[head]) break;`
run on the rules from index `i` on; the result is the value of `i` after the
loop. -/
def scan (state : Int) (c : Symbol) : List rule → Nat → Nat
  | [], i => i
  | r :: rs, i => if r.state = state ∧ r.read = c then i else scan state c rs (i + 1)

/-- Lines 57-65: the cells `tape[0], ..., tape[max_head]` the verbose trace
prints. -/
def trace_cells (tape : Tape) (max_head : Int) : List Symbol :=
  (List.range (max_head + 1).toNat).map (fun i => tape (i : Int))

/-- Lines 87-134: the rest of the loop body once `rules[i]` has matched, and
the loop condition. -/
def apply_rule (verbose : Bool) (i : Nat) (r : rule) (m : Machine) : Engine :=
  let out := if verbose then m.stdout ++ [Printed.RuleTrace i r] else m.stdout
  let tape := write m.tape m.head r.write
  let direction := r.dir
  let state := r.destination
  let head := m.head + direction
  let m1 : Machine :=
    { tape := tape, head := head, max_head := m.max_head, direction := direction,
      state := state, stdout := out }
  if head < 0 ∧ direction ≠ FINAL then
    Engine.Failed (Failure.HeadUnderflow r.state) m1
  else if TAPE_LENGTH ≤ head ∧ direction ≠ FINAL then
    Engine.Failed (Failure.HeadOverflow r.state) m1
  else
    let m2 : Machine := { m1 with max_head := if m1.max_head < head then head else m1.max_head }
    if direction ≠ FINAL then Engine.Running m2 else Engine.Halted m2

/-- Lines 54-72: the verbose trace of the tape, the head and the state at
the start of an iteration. -/
def trace_tape (verbose : Bool) (m : Machine) : Machine :=
  if verbose then
    { m with stdout := m.stdout ++
        [Printed.TapeTrace (trace_cells m.tape m.max_head) m.head m.state] }
  else m

/-- One iteration of the `do ... while` loop, lines 53-134. `rules[i]?` is
`none` exactly when `i == RULES_SIZE` (`scan_lookup_none_iff`). -/
def step (verbose : Bool) (rules : List rule) (m : Machine) : Engine :=
  let m0 := trace_tape verbose m
  let i := scan m0.state (m0.tape m0.head) rules 0
  match rules[i]? with
  | none => Engine.Failed (Failure.NoMatchingRule m0.state (m0.tape m0.head)) m0
  | some r => apply_rule verbose i r m0

/-- The engine after one more iteration; `Halted` and `Failed` are final. -/
def next (verbose : Bool) (rules : List rule) : Engine → Engine
  | Engine.Running m => step verbose rules m
  | e => e

/-- The engine after `n` iterations of the loop (fewer if it stopped). -/
def steps (verbose : Bool) (rules : List rule) : Nat → Engine → Engine
  | 0, e => e
  | n + 1, e => steps verbose rules n (next verbose rules e)

/-- The step loop run from machine `m` with at most `fuel` iterations: the
final engine and the number of iterations executed, `none` when the loop is
still running after `fuel` iterations. -/
def loop (verbose : Bool) (rules : List rule) : Nat → Machine → Option (Engine × Nat)
  | 0, _ => none
  | fuel + 1, m =>
    match step verbose rules m with
    | Engine.Running m1 => (loop verbose rules fuel m1).map (fun p => (p.1, p.2 + 1))
    | e => some (e, 1)

/-- The strings `-h`, `-help`, `--help` and `-v` as bytes. -/
def opt_h : List Symbol := [45, 104]
def opt_help : List Symbol := [45, 104, 101, 108, 112]
def opt_long_help : List Symbol := [45, 45, 104, 101, 108, 112]
def opt_v : List Symbol := [45, 118]

/-- The outcome of the argument loop, lines 11-33: the help text was asked
for, or `input` and `verbose` have their final values. -/
inductive Args where
  | Help
  | Parsed (input : Option (List Symbol)) (verbose : Bool)
deriving DecidableEq

/-- The argument loop, lines 13-33, over `argv[1], argv[2], ...`. -/
def parse_args : List (List Symbol) → Option (List Symbol) → Bool → Args
  | [], input, verbose => Args.Parsed input verbose
  | a :: rest, input, verbose =>
    if a = opt_h ∨ a = opt_help ∨ a = opt_long_help then Args.Help
    else if a = opt_v then parse_args rest input true
    else parse_args rest (some a) verbose

/-- Lines 41-50: the machine before the first iteration. -/
def initial (EOT : Symbol) (input : List Symbol) : Machine :=
  let tape := calloc
  let tape := write tape 0 EOT
  let tape := write tape (TAPE_LENGTH - 1) EOT
  let head : Int := 1
  let tape := strcpy tape head input
  { tape := tape, head := head, max_head := (input.length : Int), direction := 0,
    state := 0, stdout := [] }

/-- What a terminated run of `main` leaves: the exit code, the standard
output, the diagnostic on the error stream if any, and the number of
iterations of the step loop that were executed. -/
structure Exit where
  code : Int
  stdout : List Printed
  stderr : Option Failure
  steps : Nat
deriving DecidableEq

/-- Lines 136-140: the final print and `return 0`. -/
def finish (verbose : Bool) (m : Machine) (n : Nat) : Exit :=
  let out := if verbose then m.stdout ++ [Printed.OutputLabel] else m.stdout
  let out := out ++ [Printed.Output (cstring m.tape (TAPE_LENGTH - 1).toNat 1)]
  { code := 0, stdout := out, stderr := none, steps := n }

/-- The function `main` on the arguments `argv[1], argv[2], ...`, with at
most `fuel` iterations of the step loop; `none` when the loop is still
running after `fuel` iterations. -/
def main (fuel : Nat) (EOT : Symbol) (rules : List rule) (argv : List (List Symbol)) :
    Option Exit :=
  match parse_args argv none false with
  | Args.Help => some { code := 0, stdout := [Printed.Usage], stderr := none, steps := 0 }
  | Args.Parsed none _ =>
    some { code := 1, stdout := [], stderr := some Failure.MissingInput, steps := 0 }
  | Args.Parsed (some input) verbose =>
    match loop verbose rules fuel (initial EOT input) with
    | none => none
    | some (Engine.Failed reason m, n) =>
      some { code := 1, stdout := m.stdout, stderr := some reason, steps := n }
    | some (Engine.Halted m, n) => some (finish verbose m n)
    | some (Engine.Running _, _) => none

/-- The final tape region a run printed: the argument of the one `Output`
event of its standard output, if there is one. -/
def printed_output : List Printed → Option (Option (List Symbol))
  | [] => none
  | Printed.Output region :: _ => some region
  | _ :: rest => printed_output rest

/-- Whether rule `r` has the key `(state, c)`: the test of line 76. -/
def matches_key (state : Int) (c : Symbol) (r : rule) : Prop :=
  r.state = state ∧ r.read = c

/-- The machine an engine holds. -/
def Engine.machine : Engine → Machine
  | Engine.Running m => m
  | Engine.Halted m => m
  | Engine.Failed _ m => m

/-- Whether the loop goes on. -/
def Engine.is_running : Engine → Bool
  | Engine.Running _ => true
  | _ => false

/-- Two rules for the key `(0, 'a')`, with different effects. -/
def duplicate_rules : List rule := [⟨0, 97, 98, RIGHT, 1⟩, ⟨0, 97, 99, LEFT, 2⟩]

/-- A machine whose head is on cell 0, after the input `a`. -/
def at_left_end : Machine := { initial 4 [97] with head := 0 }

/-- The machine after one step of the rule `(0, 'a') → ('b', Right, 1)` on the
input `a`. -/
def after_one_right : Machine :=
  { tape := write (initial 4 [97]).tape 1 98, head := 2, max_head := 2, direction := 1,
    state := 1, stdout := [] }

/-- Blanks the first cell, moves right and halts on `b`, writing `c`. -/
def blank_then_halt : List rule := [⟨0, 97, 0, RIGHT, 1⟩, ⟨1, 98, 99, FINAL, 1⟩]

/-- The machine `blank_then_halt` halts on, from the input `ab`. -/
def blank_then_halt_end : Machine :=
  { tape := write (write (initial 4 [97, 98]).tape 1 0) 2 99, head := 2, max_head := 2,
    direction := 0, state := 1, stdout := [] }

/-- An input of `TAPE_LENGTH - 2` symbols. -/
def full_input : List Symbol := List.replicate 1022 97

/-- The table with, for every symbol `c`, the rule `(0, c) → (c, Right, 0)`. -/
def always_right : List rule :=
  (List.finRange 256).map (fun c => (⟨0, c, c, RIGHT, 0⟩ : rule))

/-- The table of the multi-step example: `(0, 'a') → ('a', Right, 1)` and
`(1, blank) → ('!', Halt, 1)`. -/
def multi_step_rules : List rule := [⟨0, 97, 97, RIGHT, 1⟩, ⟨1, NUL, 33, FINAL, 1⟩]

/-- A table that halts on the blank in state 0 and writes `!`. -/
def write_on_blank : List rule := [⟨0, NUL, 33, FINAL, 0⟩]

/-- A rule that moves left from the sentinel into state 7. -/
def left_from_sentinel : List rule := [⟨0, 4, 4, LEFT, 7⟩]

/-- The table `[(0, 'a') → ('a', Right, 1), (1, blank) → (blank, Left, 0)]`. -/
def ping_pong : List rule := [⟨0, 97, 97, RIGHT, 1⟩, ⟨1, NUL, NUL, LEFT, 0⟩]

/-- The configurations the table `ping_pong` alternates between on the input
`a`: `a` in cell 1, a blank in cell 2, and the head on cell 1 in state 0 or
on cell 2 in state 1. -/
def ping_pong_inv (m : Machine) : Prop :=
  m.tape 1 = 97 ∧ m.tape 2 = NUL ∧
    ((m.head = 1 ∧ m.state = 0) ∨ (m.head = 2 ∧ m.state = 1))

/-- What the sentinels guarantee of an engine: both end cells hold the
sentinel, the head of a running machine is inside the tape, and the engine
has not failed on a tape bound. -/
def sentinel_inv (EOT : Symbol) (e : Engine) : Prop :=
  e.machine.tape 0 = EOT ∧ e.machine.tape (TAPE_LENGTH - 1) = EOT ∧
    (e.is_running = true → 0 ≤ e.machine.head ∧ e.machine.head ≤ TAPE_LENGTH - 1) ∧
    ∀ s m, e ≠ Engine.Failed (Failure.HeadUnderflow s) m ∧
      e ≠ Engine.Failed (Failure.HeadOverflow s) m

/-- A rule that keeps moving left in state 0 on `a`. -/
def left_on_a : List rule := [⟨0, 97, 97, LEFT, 0⟩]

/-- A machine without the record of what it has printed: the tape, the
head, `max_head`, the direction and the state. -/
def Machine.silent (m : Machine) : Machine := { m with stdout := [] }

/-- An engine without the record of what it has printed: the same outcome
(and failure reason) on the silent machine. -/
def Engine.silent : Engine → Engine
  | Engine.Running m => Engine.Running m.silent
  | Engine.Halted m => Engine.Halted m.silent
  | Engine.Failed f m => Engine.Failed f m.silent

/-- What a run shows apart from its trace: the exit code, the diagnostic, the
number of iterations and the final tape region it printed. -/
def Exit.observable (e : Exit) : Int × Option Failure × Nat × Option (Option (List Symbol)) :=
  (e.code, e.stderr, e.steps, printed_output e.stdout)

/-- The step relation of the specification (4.2 and 4.3): from machine `m`
the engine fails with `NoMatchingRule` when no rule of the table has the key
(state, symbol under the head), and otherwise applies a rule `rules[i]` that
has the key and that no rule with the key precedes in table order. -/
inductive Step (verbose : Bool) (rules : List rule) (m : Machine) : Engine → Prop where
  | no_match :
    (∀ r ∈ rules, ¬ matches_key m.state (m.tape m.head) r) →
    Step verbose rules m
      (Engine.Failed (Failure.NoMatchingRule m.state (m.tape m.head)) (trace_tape verbose m))
  | matched (i : Nat) (r : rule) :
    rules[i]? = some r → matches_key m.state (m.tape m.head) r →
    (∀ j r1, j < i → rules[j]? = some r1 → ¬ matches_key m.state (m.tape m.head) r1) →
    Step verbose rules m (apply_rule verbose i r (trace_tape verbose m))

/-- The engines a run goes through: `Reaches verbose rules e0 n e` when `e`
is the engine `n` steps of the relation `Step` after `e0`. -/
inductive Reaches (verbose : Bool) (rules : List rule) (e0 : Engine) : Nat → Engine → Prop where
  | start : Reaches verbose rules e0 0 e0
  | more (n : Nat) (m : Machine) (e : Engine) :
    Reaches verbose rules e0 n (Engine.Running m) → Step verbose rules m e →
    Reaches verbose rules e0 (n + 1) e

/-- The machine after the rule `(0, EOT) → (EOT, Left, 7)` moved left from
cell 0. -/
def past_left_end : Machine :=
  { tape := write at_left_end.tape 0 4, head := -1, max_head := 1, direction := -1,
    state := 7, stdout := [] }

/-! ## The lookup loop -/

theorem scan_shift (state : Int) (c : Symbol) (rs : List rule) (i : Nat) :
    scan state c rs i = i + scan state c rs 0 := by
  induction rs generalizing i with
  | nil => simp [scan]
  | cons r rs ih =>
    by_cases h : r.state = state ∧ r.read = c
    · simp [scan, h]
    · rw [scan, if_neg h, scan, if_neg h, ih (i + 1), ih (0 + 1)]; omega

theorem scan_le (state : Int) (c : Symbol) (rs : List rule) :
    scan state c rs 0 ≤ rs.length := by
  induction rs with
  | nil => simp [scan]
  | cons r rs ih =>
    by_cases h : r.state = state ∧ r.read = c
    · simp [scan, h]
    · rw [scan, if_neg h, scan_shift]; simp only [List.length_cons]; omega

/-- The rule the loop stops at has the key that was looked up. -/
theorem scan_matches (state : Int) (c : Symbol) (rs : List rule) (r : rule)
    (h : rs[scan state c rs 0]? = some r) : matches_key state c r := by
  induction rs with
  | nil => simp at h
  | cons r0 rs ih =>
    by_cases h0 : r0.state = state ∧ r0.read = c
    · simp [scan, h0] at h; subst h; exact h0
    · rw [scan, if_neg h0, scan_shift] at h
      rw [show 0 + 1 + scan state c rs 0 = scan state c rs 0 + 1 by omega] at h
      simp only [List.getElem?_cons_succ] at h
      exact ih h

/-- No rule before the one the loop stops at has the key. -/
theorem scan_first (state : Int) (c : Symbol) (rs : List rule) (j : Nat) (r : rule)
    (hj : j < scan state c rs 0) (h : rs[j]? = some r) : ¬ matches_key state c r := by
  induction rs generalizing j with
  | nil => simp at h
  | cons r0 rs ih =>
    by_cases h0 : r0.state = state ∧ r0.read = c
    · simp [scan, h0] at hj
    · rw [scan, if_neg h0, scan_shift] at hj
      cases j with
      | zero => simp at h; subst h; exact h0
      | succ j =>
        simp only [List.getElem?_cons_succ] at h
        exact ih j (by omega) h

/-- The loop runs to `RULES_SIZE` exactly when no rule has the key. -/
theorem scan_eq_size_iff (state : Int) (c : Symbol) (rs : List rule) :
    scan state c rs 0 = RULES_SIZE rs ↔ ∀ r ∈ rs, ¬ matches_key state c r := by
  unfold RULES_SIZE
  induction rs with
  | nil => simp [scan]
  | cons r0 rs ih =>
    by_cases h0 : r0.state = state ∧ r0.read = c
    · simp [scan, h0, matches_key]
    · rw [scan, if_neg h0, scan_shift]
      simp only [List.length_cons, List.mem_cons, forall_eq_or_imp]
      constructor
      · intro h; exact ⟨h0, ih.mp (by omega)⟩
      · intro h; have := ih.mpr h.2; omega

/-- The test `i == RULES_SIZE` of line 79 as the model writes it. -/
theorem scan_lookup_none_iff (state : Int) (c : Symbol) (rs : List rule) :
    rs[scan state c rs 0]? = none ↔ scan state c rs 0 = RULES_SIZE rs := by
  have := scan_le state c rs
  unfold RULES_SIZE
  rw [List.getElem?_eq_none_iff]; omega

theorem resolve_none_iff (state : Int) (c : Symbol) (rs : List rule) :
    rs[scan state c rs 0]? = none ↔ ∀ r ∈ rs, ¬ matches_key state c r := by
  rw [scan_lookup_none_iff, scan_eq_size_iff]

theorem resolve_some_of_mem (state : Int) (c : Symbol) (rs : List rule)
    (h : ∃ r ∈ rs, matches_key state c r) : ∃ r, rs[scan state c rs 0]? = some r := by
  cases hr : rs[scan state c rs 0]? with
  | some r => exact ⟨r, rfl⟩
  | none =>
    obtain ⟨r, hmem, hkey⟩ := h
    exact absurd hkey ((resolve_none_iff state c rs).mp hr r hmem)

@[simp] theorem trace_tape_tape (verbose : Bool) (m : Machine) :
    (trace_tape verbose m).tape = m.tape := by
  unfold trace_tape; split <;> rfl

@[simp] theorem trace_tape_head (verbose : Bool) (m : Machine) :
    (trace_tape verbose m).head = m.head := by
  unfold trace_tape; split <;> rfl

@[simp] theorem trace_tape_state (verbose : Bool) (m : Machine) :
    (trace_tape verbose m).state = m.state := by
  unfold trace_tape; split <;> rfl

@[simp] theorem trace_tape_max_head (verbose : Bool) (m : Machine) :
    (trace_tape verbose m).max_head = m.max_head := by
  unfold trace_tape; split <;> rfl

@[simp] theorem trace_tape_direction (verbose : Bool) (m : Machine) :
    (trace_tape verbose m).direction = m.direction := by
  unfold trace_tape; split <;> rfl

/-- The step when the lookup finds rule `r`. -/
theorem step_of_resolve (verbose : Bool) (rules : List rule) (m : Machine) (r : rule)
    (h : rules[scan m.state (m.tape m.head) rules 0]? = some r) :
    step verbose rules m =
      apply_rule verbose (scan m.state (m.tape m.head) rules 0) r (trace_tape verbose m) := by
  simp only [step, trace_tape_tape, trace_tape_head, trace_tape_state, h]

/-- The step when the lookup finds no rule. -/
theorem step_of_no_rule (verbose : Bool) (rules : List rule) (m : Machine)
    (h : rules[scan m.state (m.tape m.head) rules 0]? = none) :
    step verbose rules m =
      Engine.Failed (Failure.NoMatchingRule m.state (m.tape m.head)) (trace_tape verbose m) := by
  simp only [step, trace_tape_tape, trace_tape_head, trace_tape_state, h]

/-- A rule that is applied never yields the failure `NoMatchingRule`. -/
theorem apply_rule_ne_no_match (verbose : Bool) (i : Nat) (r : rule) (m m1 : Machine)
    (s : Int) (c : Symbol) :
    apply_rule verbose i r m ≠ Engine.Failed (Failure.NoMatchingRule s c) m1 := by
  unfold apply_rule
  simp only
  split
  · intro h; injection h with h1 _; cases h1
  · split
    · intro h; injection h with h1 _; cases h1
    · split <;> intro h <;> cases h

/-! ## Matching -/

/-- C1: the matcher is first-match-wins. Whenever some rule of the table has
the key (state, symbol under the head), the lookup stops at the least index
`i` whose rule has that key (no rule before `i` has it), and the step applies
exactly `rules[i]`, whatever later rules with the same key say. -/
theorem first_match_wins (verbose : Bool) (rules : List rule) (m : Machine)
    (h : ∃ r ∈ rules, r.state = m.state ∧ r.read = m.tape m.head) :
    ∃ i r, i = scan m.state (m.tape m.head) rules 0 ∧ rules[i]? = some r ∧
      (r.state = m.state ∧ r.read = m.tape m.head) ∧
      (∀ j r1, j < i → rules[j]? = some r1 →
        ¬ (r1.state = m.state ∧ r1.read = m.tape m.head)) ∧
      step verbose rules m = apply_rule verbose i r (trace_tape verbose m) := by
  obtain ⟨r, hr⟩ := resolve_some_of_mem m.state (m.tape m.head) rules h
  refine ⟨_, r, rfl, hr, scan_matches _ _ _ _ hr, ?_, step_of_resolve verbose rules m r hr⟩
  intro j r1 hj h1
  exact scan_first _ _ _ j r1 hj h1

/-- C1 at a table with two rules for the key `(0, 'a')` and the input `a`:
the first of the two is applied. -/
theorem first_match_wins_witness :
    (∃ r ∈ duplicate_rules, r.state = (initial 4 [97]).state ∧
        r.read = (initial 4 [97]).tape (initial 4 [97]).head) ∧
    ∃ i r, i = scan (initial 4 [97]).state ((initial 4 [97]).tape (initial 4 [97]).head)
        duplicate_rules 0 ∧ duplicate_rules[i]? = some r ∧
      (r.state = (initial 4 [97]).state ∧
        r.read = (initial 4 [97]).tape (initial 4 [97]).head) ∧
      (∀ j r1, j < i → duplicate_rules[j]? = some r1 →
        ¬ (r1.state = (initial 4 [97]).state ∧
          r1.read = (initial 4 [97]).tape (initial 4 [97]).head)) ∧
      step false duplicate_rules (initial 4 [97]) =
        apply_rule false i r (trace_tape false (initial 4 [97])) :=
  ⟨⟨⟨0, 97, 98, RIGHT, 1⟩, by decide, by decide⟩,
   first_match_wins false duplicate_rules (initial 4 [97])
    ⟨⟨0, 97, 98, RIGHT, 1⟩, by decide, by decide⟩⟩

/-! ## What the loop prints -/

theorem printed_output_append (l : List Printed) (e : Printed)
    (h : printed_output l = none) : printed_output (l ++ [e]) = printed_output [e] := by
  induction l with
  | nil => rfl
  | cons a l ih =>
    cases a <;> simp_all [printed_output]

theorem trace_tape_no_output (verbose : Bool) (m : Machine)
    (h : printed_output m.stdout = none) :
    printed_output (trace_tape verbose m).stdout = none := by
  unfold trace_tape
  split
  · simp only; rw [printed_output_append _ _ h]; rfl
  · exact h

theorem apply_rule_stdout (verbose : Bool) (i : Nat) (r : rule) (m : Machine) :
    (apply_rule verbose i r m).machine.stdout =
      if verbose then m.stdout ++ [Printed.RuleTrace i r] else m.stdout := by
  unfold apply_rule
  simp only
  split
  · rfl
  · split
    · rfl
    · split <;> rfl

theorem step_no_output (verbose : Bool) (rules : List rule) (m : Machine)
    (h : printed_output m.stdout = none) :
    printed_output (step verbose rules m).machine.stdout = none := by
  have h0 := trace_tape_no_output verbose m h
  cases hr : rules[scan m.state (m.tape m.head) rules 0]? with
  | none => rw [step_of_no_rule verbose rules m hr]; exact h0
  | some r =>
    rw [step_of_resolve verbose rules m r hr, apply_rule_stdout]
    split
    · rw [printed_output_append _ _ h0]; rfl
    · exact h0

theorem loop_succ_running (verbose : Bool) (rules : List rule) (fuel : Nat) (m m1 : Machine)
    (h : step verbose rules m = Engine.Running m1) :
    loop verbose rules (fuel + 1) m =
      (loop verbose rules fuel m1).map (fun p => (p.1, p.2 + 1)) := by
  simp only [loop, h]

theorem loop_succ_halted (verbose : Bool) (rules : List rule) (fuel : Nat) (m m1 : Machine)
    (h : step verbose rules m = Engine.Halted m1) :
    loop verbose rules (fuel + 1) m = some (Engine.Halted m1, 1) := by
  simp only [loop, h]

theorem loop_succ_failed (verbose : Bool) (rules : List rule) (fuel : Nat) (m m1 : Machine)
    (f : Failure) (h : step verbose rules m = Engine.Failed f m1) :
    loop verbose rules (fuel + 1) m = some (Engine.Failed f m1, 1) := by
  simp only [loop, h]

/-- Nothing the loop prints is the final tape region. -/
theorem loop_no_output (verbose : Bool) (rules : List rule) (fuel : Nat) :
    ∀ (m : Machine) (e : Engine) (n : Nat), loop verbose rules fuel m = some (e, n) →
      printed_output m.stdout = none → printed_output e.machine.stdout = none := by
  induction fuel with
  | zero => intro m e n h; simp [loop] at h
  | succ fuel ih =>
    intro m e n h hm
    have hs := step_no_output verbose rules m hm
    cases hstep : step verbose rules m with
    | Running m1 =>
      rw [hstep] at hs
      rw [loop_succ_running verbose rules fuel m m1 hstep] at h
      cases hl : loop verbose rules fuel m1 with
      | none => rw [hl] at h; simp at h
      | some p =>
        rw [hl] at h
        simp only [Option.map_some', Option.some.injEq, Prod.mk.injEq] at h
        exact h.1 ▸ ih m1 p.1 p.2 hl hs
    | Halted m1 =>
      rw [hstep] at hs
      rw [loop_succ_halted verbose rules fuel m m1 hstep] at h
      simp only [Option.some.injEq, Prod.mk.injEq] at h
      rw [← h.1]; exact hs
    | Failed f m1 =>
      rw [hstep] at hs
      rw [loop_succ_failed verbose rules fuel m m1 f hstep] at h
      simp only [Option.some.injEq, Prod.mk.injEq] at h
      rw [← h.1]; exact hs

/-- A run that ends on a diagnostic returns 1 and has not printed the final
tape region. -/
theorem main_failed (fuel : Nat) (EOT : Symbol) (rules : List rule)
    (argv : List (List Symbol)) (e : Exit) (f : Failure)
    (h : main fuel EOT rules argv = some e) (hf : e.stderr = some f) :
    e.code = 1 ∧ printed_output e.stdout = none := by
  unfold main at h
  split at h
  · simp only [Option.some.injEq] at h; subst h; simp at hf
  · simp only [Option.some.injEq] at h; subst h; exact ⟨rfl, rfl⟩
  · rename_i input verbose _
    split at h
    · simp at h
    · rename_i reason m n hl
      simp only [Option.some.injEq] at h; subst h
      exact ⟨rfl, loop_no_output verbose rules fuel _ _ _ hl rfl⟩
    · simp only [Option.some.injEq] at h; subst h; simp [finish] at hf
    · simp at h

/-! ## No matching rule -/

theorem initial_tape_one_singleton (EOT X : Symbol) : (initial EOT [X]).tape 1 = X := by
  simp [initial, strcpy, write]

/-- C2: a step fails with `NoMatchingRule` exactly when no rule of the table
has the key (current state, symbol under the head); the failure carries that
state and that symbol and leaves tape, head and state as they were; a run
that ends on it returns 1 without printing the final tape region; and on a
table with no rule for `(0, X)` the run on the input `X` fails so at its
first step, with or without `-v`. -/
theorem no_matching_rule_fails (rules : List rule) :
    (∀ (verbose : Bool) (m : Machine),
      (∃ s c m1, step verbose rules m = Engine.Failed (Failure.NoMatchingRule s c) m1) ↔
        ∀ r ∈ rules, ¬ (r.state = m.state ∧ r.read = m.tape m.head)) ∧
    (∀ (verbose : Bool) (m : Machine) s c m1,
      step verbose rules m = Engine.Failed (Failure.NoMatchingRule s c) m1 →
        s = m.state ∧ c = m.tape m.head ∧
          m1.tape = m.tape ∧ m1.head = m.head ∧ m1.state = m.state) ∧
    (∀ fuel EOT argv e s c, main fuel EOT rules argv = some e →
      e.stderr = some (Failure.NoMatchingRule s c) →
        e.code = 1 ∧ printed_output e.stdout = none) ∧
    (∀ (fuel : Nat) (EOT X : Symbol), (∀ r ∈ rules, ¬ (r.state = 0 ∧ r.read = X)) →
      main (fuel + 1) EOT rules [[X]] =
          some ⟨1, [], some (Failure.NoMatchingRule 0 X), 1⟩ ∧
        main (fuel + 1) EOT rules [opt_v, [X]] =
          some ⟨1, [Printed.TapeTrace (trace_cells (initial EOT [X]).tape 1) 1 0],
            some (Failure.NoMatchingRule 0 X), 1⟩) := by
  have key : ∀ (verbose : Bool) (m : Machine) s c m1,
      step verbose rules m = Engine.Failed (Failure.NoMatchingRule s c) m1 →
        rules[scan m.state (m.tape m.head) rules 0]? = none := by
    intro verbose m s c m1 h
    cases hr : rules[scan m.state (m.tape m.head) rules 0]? with
    | none => rfl
    | some r =>
      rw [step_of_resolve verbose rules m r hr] at h
      exact absurd h (apply_rule_ne_no_match _ _ _ _ _ _ _)
  refine ⟨?_, ?_, ?_, ?_⟩
  · intro verbose m
    constructor
    · rintro ⟨s, c, m1, h⟩
      exact (resolve_none_iff _ _ _).mp (key verbose m s c m1 h)
    · intro h
      exact ⟨_, _, _, step_of_no_rule verbose rules m ((resolve_none_iff _ _ _).mpr h)⟩
  · intro verbose m s c m1 h
    have h2 := step_of_no_rule verbose rules m (key verbose m s c m1 h)
    rw [h2] at h
    injection h with h3 h4
    injection h3 with h5 h6
    subst h4
    exact ⟨h5.symm, h6.symm, by simp, by simp, by simp⟩
  · intro fuel EOT argv e s c h hf
    exact main_failed fuel EOT rules argv e _ h hf
  · intro fuel EOT X hX
    have hnone : ∀ verbose, step verbose rules (initial EOT [X]) =
        Engine.Failed (Failure.NoMatchingRule 0 X) (trace_tape verbose (initial EOT [X])) := by
      intro verbose
      have h1 : (initial EOT [X]).tape (initial EOT [X]).head = X :=
        initial_tape_one_singleton EOT X
      have h2 : (initial EOT [X]).state = 0 := rfl
      have := step_of_no_rule verbose rules (initial EOT [X])
        ((resolve_none_iff _ _ _).mpr (by rw [h1, h2]; exact hX))
      rw [h1, h2] at this
      exact this
    constructor
    · have hp : parse_args [[X]] none false = Args.Parsed (some [X]) false := by
        simp [parse_args, opt_h, opt_help, opt_long_help, opt_v]
      simp only [main, hp, loop_succ_failed false rules fuel _ _ _ (hnone false)]
      rfl
    · have hp : parse_args [opt_v, [X]] none false = Args.Parsed (some [X]) true := by
        simp [parse_args, opt_h, opt_help, opt_long_help, opt_v]
      simp only [main, hp, loop_succ_failed true rules fuel _ _ _ (hnone true)]
      rfl

/-- C2 on the table with the single rule `(0, 'a') → ('b', Halt, 0)` and the
input `X`: the run fails at its first step and prints nothing. -/
theorem no_matching_rule_fails_witness :
    main 1 4 [⟨0, 97, 98, FINAL, 0⟩] [[88]] =
      some ⟨1, [], some (Failure.NoMatchingRule 0 88), 1⟩ :=
  ((no_matching_rule_fails [⟨0, 97, 98, FINAL, 0⟩]).2.2.2 0 4 88 (by decide)).1

/-! ## Applying a rule -/

theorem apply_rule_tape (verbose : Bool) (i : Nat) (r : rule) (m : Machine) :
    (apply_rule verbose i r m).machine.tape = write m.tape m.head r.write := by
  unfold apply_rule
  simp only
  split
  · rfl
  · split
    · rfl
    · split <;> rfl

theorem apply_rule_head (verbose : Bool) (i : Nat) (r : rule) (m : Machine) :
    (apply_rule verbose i r m).machine.head = m.head + r.dir := by
  unfold apply_rule
  simp only
  split
  · rfl
  · split
    · rfl
    · split <;> rfl

theorem apply_rule_state (verbose : Bool) (i : Nat) (r : rule) (m : Machine) :
    (apply_rule verbose i r m).machine.state = r.destination := by
  unfold apply_rule
  simp only
  split
  · rfl
  · split
    · rfl
    · split <;> rfl

theorem apply_rule_direction (verbose : Bool) (i : Nat) (r : rule) (m : Machine) :
    (apply_rule verbose i r m).machine.direction = r.dir := by
  unfold apply_rule
  simp only
  split
  · rfl
  · split
    · rfl
    · split <;> rfl

/-- The four ways an applied rule ends an iteration, with the condition of
each. -/
theorem apply_rule_cases (verbose : Bool) (i : Nat) (r : rule) (m : Machine) :
    (r.dir ≠ FINAL ∧ m.head + r.dir < 0 ∧
      ∃ m1, apply_rule verbose i r m = Engine.Failed (Failure.HeadUnderflow r.state) m1) ∨
    (r.dir ≠ FINAL ∧ 0 ≤ m.head + r.dir ∧ TAPE_LENGTH ≤ m.head + r.dir ∧
      ∃ m1, apply_rule verbose i r m = Engine.Failed (Failure.HeadOverflow r.state) m1) ∨
    (r.dir ≠ FINAL ∧ 0 ≤ m.head + r.dir ∧ m.head + r.dir < TAPE_LENGTH ∧
      ∃ m1, apply_rule verbose i r m = Engine.Running m1) ∨
    (r.dir = FINAL ∧ ∃ m1, apply_rule verbose i r m = Engine.Halted m1) := by
  unfold apply_rule
  simp only
  by_cases hd : r.dir = FINAL
  · right; right; right
    refine ⟨hd, ?_⟩
    simp [hd]
  · by_cases h1 : m.head + r.dir < 0
    · left
      exact ⟨hd, h1, by simp [hd, h1]⟩
    · by_cases h2 : TAPE_LENGTH ≤ m.head + r.dir
      · right; left
        exact ⟨hd, by omega, h2, by simp [hd, h1, h2]⟩
      · right; right; left
        exact ⟨hd, by omega, by omega, by simp [hd, h1, h2]⟩

/-- The machine after a step that found rule `r`: the cell under the old head
holds `r.write`, every other cell is unchanged, the head has moved by
`r.dir` and the state is `r.destination`. -/
theorem step_machine (verbose : Bool) (rules : List rule) (m : Machine) (r : rule)
    (hr : rules[scan m.state (m.tape m.head) rules 0]? = some r) :
    (step verbose rules m).machine.tape = write m.tape m.head r.write ∧
    (step verbose rules m).machine.head = m.head + r.dir ∧
    (step verbose rules m).machine.state = r.destination ∧
    (step verbose rules m).machine.direction = r.dir := by
  rw [step_of_resolve verbose rules m r hr, apply_rule_tape, apply_rule_head,
    apply_rule_state, apply_rule_direction]
  simp

/-- The four ways a step that found rule `r` ends. -/
theorem step_cases (verbose : Bool) (rules : List rule) (m : Machine) (r : rule)
    (hr : rules[scan m.state (m.tape m.head) rules 0]? = some r) :
    (r.dir ≠ FINAL ∧ m.head + r.dir < 0 ∧
      ∃ m1, step verbose rules m = Engine.Failed (Failure.HeadUnderflow r.state) m1) ∨
    (r.dir ≠ FINAL ∧ 0 ≤ m.head + r.dir ∧ TAPE_LENGTH ≤ m.head + r.dir ∧
      ∃ m1, step verbose rules m = Engine.Failed (Failure.HeadOverflow r.state) m1) ∨
    (r.dir ≠ FINAL ∧ 0 ≤ m.head + r.dir ∧ m.head + r.dir < TAPE_LENGTH ∧
      ∃ m1, step verbose rules m = Engine.Running m1) ∨
    (r.dir = FINAL ∧ ∃ m1, step verbose rules m = Engine.Halted m1) := by
  have h := apply_rule_cases verbose (scan m.state (m.tape m.head) rules 0) r
    (trace_tape verbose m)
  rw [← step_of_resolve verbose rules m r hr] at h
  simpa using h

theorem write_same (tape : Tape) (pos : Int) (c : Symbol) : write tape pos c pos = c := by
  simp [write]

theorem write_other (tape : Tape) (pos j : Int) (c : Symbol) (h : j ≠ pos) :
    write tape pos c j = tape j := by
  simp [write, h]

/-! ## The three kinds of step -/

/-- C3: a step whose resolved rule `r` moves Left or Right and whose new head
stays inside `[0, TAPE_LENGTH - 1]` keeps the engine running; the cell at the
old head position holds `r.write`, every other cell is unchanged, the head is
one less (Left) or one more (Right), and the state is `r.destination`. -/
theorem moving_step_effect (verbose : Bool) (rules : List rule) (m : Machine) (r : rule)
    (hr : rules[scan m.state (m.tape m.head) rules 0]? = some r)
    (hdir : r.dir = LEFT ∨ r.dir = RIGHT)
    (hlo : 0 ≤ m.head + r.dir) (hhi : m.head + r.dir ≤ TAPE_LENGTH - 1) :
    ∃ m1, step verbose rules m = Engine.Running m1 ∧
      m1.tape m.head = r.write ∧ (∀ j, j ≠ m.head → m1.tape j = m.tape j) ∧
      (r.dir = LEFT → m1.head = m.head - 1) ∧ (r.dir = RIGHT → m1.head = m.head + 1) ∧
      m1.state = r.destination := by
  have hne : r.dir ≠ FINAL := by
    rcases hdir with h | h <;> rw [h] <;> decide
  have hm := step_machine verbose rules m r hr
  rcases step_cases verbose rules m r hr with h | h | h | h
  · omega
  · omega
  · obtain ⟨_, _, _, m1, h1⟩ := h
    rw [h1] at hm
    simp only [Engine.machine] at hm
    refine ⟨m1, h1, ?_, ?_, ?_, ?_, hm.2.2.1⟩
    · rw [hm.1]; exact write_same _ _ _
    · intro j hj; rw [hm.1]; exact write_other _ _ _ _ hj
    · intro hl; rw [hm.2.1, hl]; rfl
    · intro hl; rw [hm.2.1, hl]; rfl
  · exact absurd h.1 hne

/-- C3 on the rule `(0, 'a') → ('b', Right, 1)` and the input `a`: the cell at
index 1 becomes `b`, the head moves to 2 and the state is 1. -/
theorem moving_step_effect_witness :
    ∃ m1, step false [⟨0, 97, 98, RIGHT, 1⟩] (initial 4 [97]) = Engine.Running m1 ∧
      m1.tape 1 = 98 ∧ m1.tape 0 = 4 ∧ m1.head = 2 ∧ m1.state = 1 := by
  obtain ⟨m1, h1, h2, h3, _, h5, h6⟩ :=
    moving_step_effect false [⟨0, 97, 98, RIGHT, 1⟩] (initial 4 [97]) ⟨0, 97, 98, RIGHT, 1⟩
      (by decide) (Or.inr rfl) (by decide) (by decide)
  exact ⟨m1, h1, h2, (h3 0 (by decide)).trans (by decide), h5 rfl, h6⟩

/-- C5: on a step whose resolved rule `r` does not halt, the step fails with
`HeadUnderflow` exactly when the moved head is below 0 and with `HeadOverflow`
exactly when the moved head is at or beyond `TAPE_LENGTH`; it fails in no
other case, and then the engine keeps running with the head at exactly the
old position plus the direction (no wrap-around). For a head inside the tape
the underflow is the move Left from 0, the overflow the move Right from
`TAPE_LENGTH - 1`. -/
theorem bounds_failures (verbose : Bool) (rules : List rule) (m : Machine) (r : rule)
    (hr : rules[scan m.state (m.tape m.head) rules 0]? = some r) (hdir : r.dir ≠ FINAL) :
    ((∃ s m1, step verbose rules m = Engine.Failed (Failure.HeadUnderflow s) m1) ↔
      m.head + r.dir < 0) ∧
    ((∃ s m1, step verbose rules m = Engine.Failed (Failure.HeadOverflow s) m1) ↔
      TAPE_LENGTH ≤ m.head + r.dir) ∧
    ((∃ f m1, step verbose rules m = Engine.Failed f m1) ↔
      (m.head + r.dir < 0 ∨ TAPE_LENGTH ≤ m.head + r.dir)) ∧
    (0 ≤ m.head + r.dir → m.head + r.dir < TAPE_LENGTH →
      ∃ m1, step verbose rules m = Engine.Running m1 ∧ m1.head = m.head + r.dir) ∧
    (0 ≤ m.head → m.head < TAPE_LENGTH → r.dir = LEFT →
      ((∃ s m1, step verbose rules m = Engine.Failed (Failure.HeadUnderflow s) m1) ↔
        m.head = 0) ∧
      ¬ ∃ s m1, step verbose rules m = Engine.Failed (Failure.HeadOverflow s) m1) ∧
    (0 ≤ m.head → m.head < TAPE_LENGTH → r.dir = RIGHT →
      ((∃ s m1, step verbose rules m = Engine.Failed (Failure.HeadOverflow s) m1) ↔
        m.head = TAPE_LENGTH - 1) ∧
      ¬ ∃ s m1, step verbose rules m = Engine.Failed (Failure.HeadUnderflow s) m1) := by
  have hm := step_machine verbose rules m r hr
  have hu : (∃ s m1, step verbose rules m = Engine.Failed (Failure.HeadUnderflow s) m1) ↔
      m.head + r.dir < 0 := by
    rcases step_cases verbose rules m r hr with h | h | h | h
    · obtain ⟨_, h2, m1, h1⟩ := h
      exact ⟨fun _ => h2, fun _ => ⟨_, m1, h1⟩⟩
    · obtain ⟨_, h2, _, m1, h1⟩ := h
      constructor
      · rintro ⟨s, m2, h3⟩; rw [h1] at h3; injection h3 with h4 _; cases h4
      · intro h3; omega
    · obtain ⟨_, h2, _, m1, h1⟩ := h
      constructor
      · rintro ⟨s, m2, h3⟩; rw [h1] at h3; cases h3
      · intro h3; omega
    · exact absurd h.1 hdir
  have ho : (∃ s m1, step verbose rules m = Engine.Failed (Failure.HeadOverflow s) m1) ↔
      TAPE_LENGTH ≤ m.head + r.dir := by
    rcases step_cases verbose rules m r hr with h | h | h | h
    · obtain ⟨_, h2, m1, h1⟩ := h
      constructor
      · rintro ⟨s, m2, h3⟩; rw [h1] at h3; injection h3 with h4 _; cases h4
      · intro h3; unfold TAPE_LENGTH at h3; omega
    · obtain ⟨_, _, h2, m1, h1⟩ := h
      exact ⟨fun _ => h2, fun _ => ⟨_, m1, h1⟩⟩
    · obtain ⟨_, _, h2, m1, h1⟩ := h
      constructor
      · rintro ⟨s, m2, h3⟩; rw [h1] at h3; cases h3
      · intro h3; omega
    · exact absurd h.1 hdir
  refine ⟨hu, ho, ?_, ?_, ?_, ?_⟩
  · rcases step_cases verbose rules m r hr with h | h | h | h
    · obtain ⟨_, h2, m1, h1⟩ := h
      exact ⟨fun _ => Or.inl h2, fun _ => ⟨_, m1, h1⟩⟩
    · obtain ⟨_, _, h2, m1, h1⟩ := h
      exact ⟨fun _ => Or.inr h2, fun _ => ⟨_, m1, h1⟩⟩
    · obtain ⟨_, h2, h3, m1, h1⟩ := h
      constructor
      · rintro ⟨f, m2, h4⟩; rw [h1] at h4; cases h4
      · intro h4; omega
    · exact absurd h.1 hdir
  · intro h0 hN
    rcases step_cases verbose rules m r hr with h | h | h | h
    · omega
    · omega
    · obtain ⟨_, _, _, m1, h1⟩ := h
      rw [h1] at hm
      exact ⟨m1, h1, hm.2.1⟩
    · exact absurd h.1 hdir
  · intro h0 hN hl
    rw [hu, ho, hl]
    unfold LEFT TAPE_LENGTH at *
    constructor <;> [constructor; skip] <;> intros <;> omega
  · intro h0 hN hl
    rw [hu, ho, hl]
    unfold RIGHT TAPE_LENGTH at *
    constructor <;> [constructor; skip] <;> intros <;> omega

/-- C5 on a rule that moves Left from cell 0: the step fails with
`HeadUnderflow`. -/
theorem bounds_failures_witness :
    ∃ s m1, step false [⟨0, 4, 4, LEFT, 0⟩] at_left_end =
      Engine.Failed (Failure.HeadUnderflow s) m1 :=
  (bounds_failures false [⟨0, 4, 4, LEFT, 0⟩] at_left_end ⟨0, 4, 4, LEFT, 0⟩
    (by decide) (by decide)).1.mpr (by decide)

/-- C6: a step whose resolved rule `r` has direction Halt writes `r.write` at
the head (every other cell unchanged), sets the state to `r.destination`,
leaves the head where it was and halts the engine; it raises no failure,
wherever the head is. -/
theorem halting_step_effect (verbose : Bool) (rules : List rule) (m : Machine) (r : rule)
    (hr : rules[scan m.state (m.tape m.head) rules 0]? = some r) (hdir : r.dir = FINAL) :
    (∃ m1, step verbose rules m = Engine.Halted m1 ∧
      m1.tape m.head = r.write ∧ (∀ j, j ≠ m.head → m1.tape j = m.tape j) ∧
      m1.state = r.destination ∧ m1.head = m.head) ∧
    ∀ f m2, step verbose rules m ≠ Engine.Failed f m2 := by
  have hm := step_machine verbose rules m r hr
  rcases step_cases verbose rules m r hr with h | h | h | h
  · exact absurd hdir h.1
  · exact absurd hdir h.1
  · exact absurd hdir h.1
  · obtain ⟨_, m1, h1⟩ := h
    rw [h1] at hm
    simp only [Engine.machine] at hm
    refine ⟨⟨m1, h1, ?_, ?_, hm.2.2.1, ?_⟩, ?_⟩
    · rw [hm.1]; exact write_same _ _ _
    · intro j hj; rw [hm.1]; exact write_other _ _ _ _ hj
    · rw [hm.2.1, hdir]; simp [FINAL]
    · intro f m2 h2; rw [h1] at h2; cases h2

/-- C6 on the rule `(0, 'a') → ('b', Halt, 0)` and the input `a`. -/
theorem halting_step_effect_witness :
    ∃ m1, step false [⟨0, 97, 98, FINAL, 0⟩] (initial 4 [97]) = Engine.Halted m1 ∧
      m1.tape 1 = 98 ∧ m1.state = 0 ∧ m1.head = 1 := by
  obtain ⟨⟨m1, h1, h2, _, h4, h5⟩, _⟩ :=
    halting_step_effect false [⟨0, 97, 98, FINAL, 0⟩] (initial 4 [97]) ⟨0, 97, 98, FINAL, 0⟩
      (by decide) rfl
  exact ⟨m1, h1, h2, h4, h5⟩

/-! ## The head stays inside the tape -/

/-- Whenever a step leaves the engine running, the new head is inside the
tape: both bounds checks of lines 113 and 122 have passed. -/
theorem step_running_head (verbose : Bool) (rules : List rule) (m m1 : Machine)
    (h : step verbose rules m = Engine.Running m1) :
    0 ≤ m1.head ∧ m1.head < TAPE_LENGTH := by
  cases hr : rules[scan m.state (m.tape m.head) rules 0]? with
  | none => rw [step_of_no_rule verbose rules m hr] at h; cases h
  | some r =>
    have hm := step_machine verbose rules m r hr
    rw [h] at hm
    simp only [Engine.machine] at hm
    rcases step_cases verbose rules m r hr with h1 | h1 | h1 | h1
    · obtain ⟨_, _, m2, h2⟩ := h1; rw [h] at h2; cases h2
    · obtain ⟨_, _, _, m2, h2⟩ := h1; rw [h] at h2; cases h2
    · rw [hm.2.1]; exact ⟨h1.2.1, h1.2.2.1⟩
    · obtain ⟨_, m2, h2⟩ := h1; rw [h] at h2; cases h2

theorem steps_succ (verbose : Bool) (rules : List rule) (n : Nat) (e : Engine) :
    steps verbose rules (n + 1) e = next verbose rules (steps verbose rules n e) := by
  induction n generalizing e with
  | zero => rfl
  | succ n ih => rw [steps, ih (next verbose rules e)]; rfl

/-- An invariant of running machines that the first machine has and every
step re-establishes holds of every running machine that is reached. -/
theorem steps_invariant (verbose : Bool) (rules : List rule) (P : Machine → Prop)
    (hstep : ∀ m m1, P m → step verbose rules m = Engine.Running m1 → P m1) (m0 : Machine)
    (h0 : P m0) (n : Nat) (m : Machine)
    (h : steps verbose rules n (Engine.Running m0) = Engine.Running m) : P m := by
  induction n generalizing m with
  | zero => simp only [steps] at h; injection h with h; exact h ▸ h0
  | succ n ih =>
    rw [steps_succ] at h
    cases hn : steps verbose rules n (Engine.Running m0) with
    | Running m1 =>
      rw [hn] at h
      exact hstep m1 m (ih m1 hn) h
    | Halted m1 => rw [hn] at h; cases h
    | Failed f m1 => rw [hn] at h; cases h

/-- C4: for every rule table and every input of at most `TAPE_LENGTH - 2`
symbols, every machine the loop reaches while running (every machine on
which a step is executed) has its head inside `[0, TAPE_LENGTH - 1]`, so the
cell the step reads and writes is a cell of the tape. -/
theorem head_in_tape (EOT : Symbol) (rules : List rule) (verbose : Bool)
    (input : List Symbol) (n : Nat) (m : Machine)
    (_hlen : (input.length : Int) ≤ TAPE_LENGTH - 2)
    (hreach : steps verbose rules n (Engine.Running (initial EOT input)) = Engine.Running m) :
    0 ≤ m.head ∧ m.head ≤ TAPE_LENGTH - 1 := by
  have h := steps_invariant verbose rules (fun m => 0 ≤ m.head ∧ m.head < TAPE_LENGTH)
    (fun m m1 _ hs => step_running_head verbose rules m m1 hs) (initial EOT input)
    ⟨show (0 : Int) ≤ 1 by decide, show (1 : Int) < 1024 by decide⟩ n m hreach
  exact ⟨h.1, by have := h.2; omega⟩

/-- C4 after one step to the right on the input `a`. -/
theorem head_in_tape_witness :
    0 ≤ after_one_right.head ∧ after_one_right.head ≤ TAPE_LENGTH - 1 :=
  head_in_tape 4 [⟨0, 97, 98, RIGHT, 1⟩] false [97] 1 after_one_right (by decide) rfl

/-! ## The tape that `main` builds -/

theorem strcpy_below (l : List Symbol) (tape : Tape) (pos j : Int) (h : j < pos) :
    strcpy tape pos l j = tape j := by
  induction l generalizing tape pos with
  | nil => exact write_other _ _ _ _ (by omega)
  | cons c cs ih =>
    rw [strcpy, ih _ _ (by omega)]
    exact write_other _ _ _ _ (by omega)

theorem strcpy_above (l : List Symbol) (tape : Tape) (pos j : Int)
    (h : pos + l.length < j) : strcpy tape pos l j = tape j := by
  induction l generalizing tape pos with
  | nil =>
    simp only [List.length_nil, Nat.cast_zero, add_zero] at h
    exact write_other _ _ _ _ (by omega)
  | cons c cs ih =>
    simp only [List.length_cons, Nat.cast_add, Nat.cast_one] at h
    rw [strcpy, ih _ _ (by omega)]
    exact write_other _ _ _ _ (by omega)

/-- The terminating zero byte lands right after the copied bytes. -/
theorem strcpy_terminator (l : List Symbol) (tape : Tape) (pos : Int) :
    strcpy tape pos l (pos + l.length) = 0 := by
  induction l generalizing tape pos with
  | nil => simp [strcpy, write]
  | cons c cs ih =>
    simp only [List.length_cons, Nat.cast_add, Nat.cast_one]
    rw [strcpy, show pos + ((cs.length : Int) + 1) = pos + 1 + cs.length by omega]
    exact ih _ _

/-- The copied bytes, in order. -/
theorem strcpy_copied (l : List Symbol) (tape : Tape) (pos : Int) (i : Nat) (c : Symbol)
    (h : l[i]? = some c) : strcpy tape pos l (pos + i) = c := by
  induction l generalizing tape pos i with
  | nil => simp at h
  | cons c0 cs ih =>
    cases i with
    | zero =>
      simp only [List.getElem?_cons_zero, Option.some.injEq] at h
      subst h
      simp only [Nat.cast_zero, add_zero]
      rw [strcpy, strcpy_below _ _ _ _ (by omega)]
      exact write_same _ _ _
    | succ i =>
      simp only [List.getElem?_cons_succ] at h
      rw [strcpy, show pos + ((i + 1 : Nat) : Int) = pos + 1 + i by push_cast; omega]
      exact ih _ _ i h

theorem initial_head (EOT : Symbol) (input : List Symbol) : (initial EOT input).head = 1 := rfl

theorem initial_state (EOT : Symbol) (input : List Symbol) : (initial EOT input).state = 0 := rfl

theorem initial_stdout (EOT : Symbol) (input : List Symbol) :
    (initial EOT input).stdout = [] := rfl

theorem initial_tape (EOT : Symbol) (input : List Symbol) :
    (initial EOT input).tape =
      strcpy (write (write calloc 0 EOT) (TAPE_LENGTH - 1) EOT) 1 input := rfl

/-- Cell 0 of the initial tape holds the sentinel. -/
theorem initial_tape_zero (EOT : Symbol) (input : List Symbol) :
    (initial EOT input).tape 0 = EOT := by
  rw [initial_tape, strcpy_below _ _ _ _ (by decide), write_other _ _ _ _ (by decide)]
  exact write_same _ _ _

/-- Cells `1 .. len(input)` of the initial tape hold the input. -/
theorem initial_tape_input (EOT : Symbol) (input : List Symbol) (i : Nat) (c : Symbol)
    (h : input[i]? = some c) : (initial EOT input).tape (1 + (i : Int)) = c := by
  rw [initial_tape]; exact strcpy_copied _ _ _ _ _ h

/-- The cell after the input holds the terminator of `strcpy`. -/
theorem initial_tape_terminator (EOT : Symbol) (input : List Symbol) :
    (initial EOT input).tape (1 + (input.length : Int)) = 0 := by
  rw [initial_tape]; exact strcpy_terminator _ _ _

/-- Beyond the terminator the initial tape is as `calloc` and the two
sentinel assignments left it. -/
theorem initial_tape_rest (EOT : Symbol) (input : List Symbol) (j : Int)
    (h : 1 + (input.length : Int) < j) :
    (initial EOT input).tape j = if j = TAPE_LENGTH - 1 then EOT else 0 := by
  rw [initial_tape, strcpy_above _ _ _ _ h]
  have h0 : j ≠ 0 := by omega
  simp [write, calloc, h0]

/-- The string `printf("%s")` finds at `pos` when the cells from `pos` on hold
the non-zero bytes `l` followed by a zero byte, all inside the block. -/
theorem cstring_eq (tape : Tape) (l : List Symbol) (fuel : Nat) (pos : Int)
    (hcells : ∀ (i : Nat) (c : Symbol), l[i]? = some c → tape (pos + i) = c)
    (hnz : ∀ c ∈ l, c ≠ 0) (hend : tape (pos + l.length) = 0) (hfuel : l.length < fuel) :
    cstring tape fuel pos = some l := by
  induction l generalizing fuel pos with
  | nil =>
    cases fuel with
    | zero => simp at hfuel
    | succ fuel =>
      simp only [List.length_nil, Nat.cast_zero, add_zero] at hend
      simp [cstring, hend]
  | cons c cs ih =>
    cases fuel with
    | zero => simp at hfuel
    | succ fuel =>
      have h0 : tape pos = c := by
        have := hcells 0 c (by simp)
        simpa using this
      have hc : c ≠ 0 := hnz c (by simp)
      have hrest : cstring tape fuel (pos + 1) = some cs := by
        apply ih
        · intro i c1 hi
          have := hcells (i + 1) c1 (by simpa using hi)
          rw [show pos + 1 + (i : Int) = pos + ((i + 1 : Nat) : Int) by push_cast; omega]
          exact this
        · intro c1 hc1; exact hnz c1 (by simp [hc1])
        · simp only [List.length_cons, Nat.cast_add, Nat.cast_one] at hend
          rw [show pos + 1 + (cs.length : Int) = pos + ((cs.length : Int) + 1) by omega]
          exact hend
        · simp only [List.length_cons] at hfuel; omega
      simp [cstring, h0, hc, hrest]

/-! ## The final print -/

theorem finish_output (verbose : Bool) (m : Machine) (n : Nat)
    (h : printed_output m.stdout = none) :
    printed_output (finish verbose m n).stdout =
      some (cstring m.tape (TAPE_LENGTH - 1).toNat 1) := by
  unfold finish
  simp only
  cases verbose with
  | false => simp only [Bool.false_eq_true, if_false]; rw [printed_output_append _ _ h]; rfl
  | true =>
    simp only [if_true]
    have h1 : printed_output (m.stdout ++ [Printed.OutputLabel]) = none := by
      rw [printed_output_append _ _ h]; rfl
    rw [printed_output_append _ _ h1]; rfl

/-- The exit of `main` when the loop halts. -/
theorem main_halted (fuel : Nat) (EOT : Symbol) (rules : List rule)
    (argv : List (List Symbol)) (input : List Symbol) (verbose : Bool) (m : Machine) (n : Nat)
    (hargs : parse_args argv none false = Args.Parsed (some input) verbose)
    (hloop : loop verbose rules fuel (initial EOT input) = some (Engine.Halted m, n)) :
    main fuel EOT rules argv = some (finish verbose m n) := by
  simp only [main, hargs, hloop]

/-- The exit of `main` when the loop fails. -/
theorem main_loop_failed (fuel : Nat) (EOT : Symbol) (rules : List rule)
    (argv : List (List Symbol)) (input : List Symbol) (verbose : Bool) (m : Machine) (n : Nat)
    (f : Failure)
    (hargs : parse_args argv none false = Args.Parsed (some input) verbose)
    (hloop : loop verbose rules fuel (initial EOT input) = some (Engine.Failed f m, n)) :
    main fuel EOT rules argv =
      some { code := 1, stdout := m.stdout, stderr := some f, steps := n } := by
  simp only [main, hargs, hloop]

/-- C7: when the loop halts on machine `m` and `k ≥ 1` is the index of the
first blank cell of `m.tape` from index 1 on, `main` returns 0 and the final
tape region it prints is exactly `tape[1], ..., tape[k-1]`: cell 0 is not
part of it, and neither is any cell from the first blank on. -/
theorem output_on_halt (fuel : Nat) (EOT : Symbol) (rules : List rule)
    (argv : List (List Symbol)) (input : List Symbol) (verbose : Bool) (m : Machine)
    (n k : Nat)
    (hargs : parse_args argv none false = Args.Parsed (some input) verbose)
    (hloop : loop verbose rules fuel (initial EOT input) = some (Engine.Halted m, n))
    (hk : 1 ≤ k ∧ (k : Int) ≤ TAPE_LENGTH - 1)
    (hblank : m.tape k = NUL)
    (hfirst : ∀ j : Nat, 1 ≤ j → j < k → m.tape j ≠ NUL) :
    ∃ e, main fuel EOT rules argv = some e ∧ e.code = 0 ∧
      printed_output e.stdout =
        some (some ((List.range (k - 1)).map (fun j : Nat => m.tape (1 + (j : Int))))) := by
  refine ⟨_, main_halted fuel EOT rules argv input verbose m n hargs hloop, rfl, ?_⟩
  have hno := loop_no_output verbose rules fuel _ _ _ hloop rfl
  rw [finish_output verbose m n hno]
  congr 1
  apply cstring_eq
  · intro i c hi
    simp only [List.getElem?_map, Option.map_eq_some'] at hi
    obtain ⟨j, hj, rfl⟩ := hi
    rw [List.getElem?_range] at hj
    · injection hj with hj; rw [hj]
    · by_contra hlt
      rw [List.getElem?_eq_none (by simpa using hlt)] at hj
      cases hj
  · intro c hc
    simp only [List.mem_map, List.mem_range] at hc
    obtain ⟨j, hj, rfl⟩ := hc
    have := hfirst (j + 1) (by omega) (by omega)
    rw [show ((j + 1 : Nat) : Int) = 1 + (j : Int) by push_cast; omega] at this
    exact this
  · simp only [List.length_map, List.length_range]
    rw [show (1 : Int) + ((k - 1 : Nat) : Int) = (k : Int) by omega]
    exact hblank
  · simp only [List.length_map, List.length_range]
    have := hk.2
    unfold TAPE_LENGTH at this ⊢
    omega

/-- C7 on a run that leaves `tape[1]` blank and `tape[2] = 'c'`: the printed
region is empty, the `c` after the first blank is not printed. -/
theorem output_on_halt_witness :
    blank_then_halt_end.tape 2 = 99 ∧
    ∃ e, main 2 4 blank_then_halt [[97, 98]] = some e ∧ e.code = 0 ∧
      printed_output e.stdout = some (some []) :=
  ⟨by decide,
   output_on_halt 2 4 blank_then_halt [[97, 98]] [97, 98] false blank_then_halt_end 2 1
    (by decide) rfl (by decide) (by decide) (by intro j h1 h2; omega)⟩

/-! ## The initial configuration -/

/-- The initial configuration for an input of at most `TAPE_LENGTH - 3`
symbols: the sentinel at both ends, the input in cells `1 .. len(input)`,
blanks elsewhere, head 1 and state 0. -/
theorem initial_configuration (EOT : Symbol) (input : List Symbol)
    (hlen : (input.length : Int) ≤ TAPE_LENGTH - 3) :
    (initial EOT input).tape 0 = EOT ∧
    (initial EOT input).tape (TAPE_LENGTH - 1) = EOT ∧
    (∀ (i : Nat) (c : Symbol), input[i]? = some c →
      (initial EOT input).tape (1 + (i : Int)) = c) ∧
    (∀ j : Int, (input.length : Int) < j → j < TAPE_LENGTH - 1 →
      (initial EOT input).tape j = NUL) ∧
    (initial EOT input).head = 1 ∧ (initial EOT input).state = 0 := by
  refine ⟨initial_tape_zero EOT input, ?_, initial_tape_input EOT input, ?_, rfl, rfl⟩
  · rw [initial_tape_rest EOT input _ (by omega)]; simp
  · intro j h1 h2
    by_cases hj : j = 1 + (input.length : Int)
    · rw [hj]; exact initial_tape_terminator EOT input
    · rw [initial_tape_rest EOT input _ (by omega), if_neg (by omega)]; rfl

/-- An input of exactly `TAPE_LENGTH - 2` symbols puts the terminator of
`strcpy` on the last cell of the tape. -/
theorem initial_tape_last_of_full (EOT : Symbol) (input : List Symbol)
    (hlen : (input.length : Int) = TAPE_LENGTH - 2) :
    (initial EOT input).tape (TAPE_LENGTH - 1) = NUL := by
  have h := initial_tape_terminator EOT input
  rw [hlen, show (1 : Int) + (TAPE_LENGTH - 2) = TAPE_LENGTH - 1 by omega] at h
  exact h

/-- C8 fails on the code at an input of exactly `TAPE_LENGTH - 2 = 1022`
symbols: cell 0 holds the sentinel, but the last cell `TAPE_LENGTH - 1`,
which line 43 set to the sentinel, holds the blank: the terminating zero byte
that `strcpy` wrote on line 46 has replaced it. -/
theorem initial_sentinel_overwritten :
    (full_input.length : Int) ≤ TAPE_LENGTH - 2 ∧
    (initial 4 full_input).tape 0 = 4 ∧
    (initial 4 full_input).tape (TAPE_LENGTH - 1) = NUL ∧
    (initial 4 full_input).tape (TAPE_LENGTH - 1) ≠ 4 := by
  have hlen : (full_input.length : Int) = TAPE_LENGTH - 2 := by
    unfold full_input TAPE_LENGTH
    rw [List.length_replicate]
    rfl
  have h := initial_tape_last_of_full 4 full_input hlen
  refine ⟨by omega, initial_tape_zero 4 full_input, h, ?_⟩
  rw [h]; decide

/-! ## The loop and its iterations -/

theorem steps_running (verbose : Bool) (rules : List rule) (n : Nat) (m : Machine) :
    steps verbose rules (n + 1) (Engine.Running m) =
      steps verbose rules n (step verbose rules m) := rfl

theorem steps_halted (verbose : Bool) (rules : List rule) (n : Nat) (m : Machine) :
    steps verbose rules n (Engine.Halted m) = Engine.Halted m := by
  induction n with
  | zero => rfl
  | succ n ih => rw [steps]; exact ih

theorem steps_failed (verbose : Bool) (rules : List rule) (n : Nat) (f : Failure)
    (m : Machine) : steps verbose rules n (Engine.Failed f m) = Engine.Failed f m := by
  induction n with
  | zero => rfl
  | succ n ih => rw [steps]; exact ih

theorem steps_add (verbose : Bool) (rules : List rule) (a b : Nat) (e : Engine) :
    steps verbose rules (a + b) e = steps verbose rules b (steps verbose rules a e) := by
  induction a generalizing e with
  | zero => simp [steps]
  | succ a ih => rw [show a + 1 + b = (a + b) + 1 by omega, steps, ih, steps]

/-- The loop ends after exactly `n` iterations in the engine `e` when the
first `n - 1` iterations leave it running and the `n`-th does not; any fuel
from `n` on gives this result. -/
theorem loop_eq_some (verbose : Bool) (rules : List rule) (n : Nat) :
    ∀ (m0 : Machine) (e : Engine),
      (∀ k, k < n → (steps verbose rules k (Engine.Running m0)).is_running = true) →
      steps verbose rules n (Engine.Running m0) = e → e.is_running = false →
      ∀ fuel, n ≤ fuel → loop verbose rules fuel m0 = some (e, n) := by
  induction n with
  | zero =>
    intro m0 e _ h hr
    simp only [steps] at h
    rw [← h] at hr
    simp [Engine.is_running] at hr
  | succ n ih =>
    intro m0 e hk h hr fuel hfuel
    obtain ⟨f, rfl⟩ : ∃ f, fuel = f + 1 := ⟨fuel - 1, by omega⟩
    rw [steps_running] at h
    cases hs : step verbose rules m0 with
    | Running m1 =>
      rw [loop_succ_running verbose rules f m0 m1 hs]
      rw [hs] at h
      have hk1 : ∀ k, k < n → (steps verbose rules k (Engine.Running m1)).is_running = true := by
        intro k hkn
        have := hk (k + 1) (by omega)
        rw [steps_running, hs] at this
        exact this
      rw [ih m1 e hk1 h hr f (by omega)]
      rfl
    | Halted m1 =>
      rw [hs, steps_halted] at h
      have hn : n = 0 := by
        by_contra hne
        have := hk 1 (by omega)
        rw [steps_running, hs] at this
        simp [steps, Engine.is_running] at this
      subst hn
      rw [loop_succ_halted verbose rules f m0 m1 hs, h]
    | Failed f1 m1 =>
      rw [hs, steps_failed] at h
      have hn : n = 0 := by
        by_contra hne
        have := hk 1 (by omega)
        rw [steps_running, hs] at this
        simp [steps, Engine.is_running] at this
      subst hn
      rw [loop_succ_failed verbose rules f m0 m1 f1 hs, h]

/-- The loop is still running after `fuel` iterations when each of them
leaves the engine running. -/
theorem loop_eq_none (verbose : Bool) (rules : List rule) (fuel : Nat) :
    ∀ m0 : Machine,
      (∀ k, k ≤ fuel → (steps verbose rules k (Engine.Running m0)).is_running = true) →
      loop verbose rules fuel m0 = none := by
  induction fuel with
  | zero => intro m0 _; rfl
  | succ fuel ih =>
    intro m0 hk
    have h1 := hk 1 (by omega)
    rw [steps_running] at h1
    cases hs : step verbose rules m0 with
    | Running m1 =>
      rw [loop_succ_running verbose rules fuel m0 m1 hs, ih m1]
      · rfl
      · intro k hkf
        have := hk (k + 1) (by omega)
        rw [steps_running, hs] at this
        exact this
    | Halted m1 => rw [hs] at h1; simp [steps, Engine.is_running] at h1
    | Failed f1 m1 => rw [hs] at h1; simp [steps, Engine.is_running] at h1

/-! ## A table that always moves right -/

theorem tape_cells_from_one : (TAPE_LENGTH - 1).toNat = 1023 := by decide

/-- One step of a table that, from state 0, always moves right into state 0:
the head advances by one, or the step fails with `HeadOverflow` when the new
head is at `TAPE_LENGTH`. -/
theorem step_always_right (verbose : Bool) (rules : List rule) (m : Machine)
    (hrules : ∀ c : Symbol, ∃ r, rules[scan 0 c rules 0]? = some r ∧
      r.dir = RIGHT ∧ r.destination = 0)
    (hstate : m.state = 0) (hhead : 0 ≤ m.head) :
    (m.head + 1 < TAPE_LENGTH → ∃ m1, step verbose rules m = Engine.Running m1 ∧
      m1.head = m.head + 1 ∧ m1.state = 0) ∧
    (TAPE_LENGTH ≤ m.head + 1 → ∃ m1, step verbose rules m =
      Engine.Failed (Failure.HeadOverflow 0) m1 ∧ m1.head = m.head + 1) := by
  obtain ⟨r, hr, hdir, hdest⟩ := hrules (m.tape m.head)
  rw [← hstate] at hr
  have hkey := scan_matches _ _ _ _ hr
  have hrs : r.state = 0 := hkey.1.trans hstate
  have hm := step_machine verbose rules m r hr
  have hcases := step_cases verbose rules m r hr
  rw [hdir] at hcases hm
  rw [hrs] at hcases
  unfold RIGHT at hcases hm
  constructor
  · intro hlt
    rcases hcases with h | h | h | h
    · omega
    · omega
    · obtain ⟨_, _, _, m1, h1⟩ := h
      rw [h1] at hm
      exact ⟨m1, h1, hm.2.1, hm.2.2.1.trans hdest⟩
    · exact absurd h.1 (by decide)
  · intro hge
    rcases hcases with h | h | h | h
    · omega
    · obtain ⟨_, _, _, m1, h1⟩ := h
      rw [h1] at hm
      exact ⟨m1, h1, hm.2.1⟩
    · omega
    · exact absurd h.1 (by decide)

/-- After `k ≤ TAPE_LENGTH - 2` iterations of such a table the engine is
running in state 0 with the head on cell `1 + k`. -/
theorem steps_always_right (verbose : Bool) (rules : List rule) (EOT : Symbol)
    (input : List Symbol)
    (hrules : ∀ c : Symbol, ∃ r, rules[scan 0 c rules 0]? = some r ∧
      r.dir = RIGHT ∧ r.destination = 0)
    (k : Nat) (hk : (k : Int) ≤ TAPE_LENGTH - 2) :
    ∃ m, steps verbose rules k (Engine.Running (initial EOT input)) = Engine.Running m ∧
      m.head = 1 + (k : Int) ∧ m.state = 0 := by
  induction k with
  | zero => exact ⟨initial EOT input, rfl, rfl, rfl⟩
  | succ k ih =>
    obtain ⟨m, hm, hhead, hstate⟩ := ih (by push_cast at hk; omega)
    obtain ⟨m1, h1, hh1, hs1⟩ :=
      (step_always_right verbose rules m hrules hstate (by omega)).1
        (by push_cast at hk; omega)
    refine ⟨m1, ?_, ?_, hs1⟩
    · rw [steps_succ, hm]; exact h1
    · rw [hh1, hhead]; push_cast; omega

/-- C9: on a rule table whose first rule for `(0, c)` moves Right into state
0 for every symbol `c`, and an input of at most `TAPE_LENGTH - 2` symbols,
the head is on cell `1 + k` after `k` steps for every `k ≤ TAPE_LENGTH - 2`,
step number `TAPE_LENGTH - 1` fails with `HeadOverflow` with the head at
`TAPE_LENGTH`, the engine never halts, and `main` returns 1 after exactly
`TAPE_LENGTH - 1` iterations without printing the final tape region. -/
theorem boundary_overflow (EOT : Symbol) (rules : List rule) (argv : List (List Symbol))
    (input : List Symbol) (verbose : Bool)
    (hrules : ∀ c : Symbol, ∃ r, rules[scan 0 c rules 0]? = some r ∧
      r.dir = RIGHT ∧ r.destination = 0)
    (_hlen : (input.length : Int) ≤ TAPE_LENGTH - 2)
    (hargs : parse_args argv none false = Args.Parsed (some input) verbose) :
    (∀ k : Nat, (k : Int) ≤ TAPE_LENGTH - 2 →
      ∃ m, steps verbose rules k (Engine.Running (initial EOT input)) = Engine.Running m ∧
        m.head = 1 + (k : Int) ∧ m.state = 0) ∧
    (∀ n : Nat, (n : Int) = TAPE_LENGTH - 1 →
      ∃ m, steps verbose rules n (Engine.Running (initial EOT input)) =
        Engine.Failed (Failure.HeadOverflow 0) m ∧ m.head = TAPE_LENGTH) ∧
    (∀ (n : Nat) (m : Machine),
      steps verbose rules n (Engine.Running (initial EOT input)) ≠ Engine.Halted m) ∧
    (∀ fuel : Nat, TAPE_LENGTH - 1 ≤ (fuel : Int) →
      ∃ e, main fuel EOT rules argv = some e ∧ e.code = 1 ∧
        e.stderr = some (Failure.HeadOverflow 0) ∧ (e.steps : Int) = TAPE_LENGTH - 1 ∧
        printed_output e.stdout = none) ∧
    (∀ fuel : Nat, (fuel : Int) < TAPE_LENGTH - 1 → main fuel EOT rules argv = none) := by
  have hrun := steps_always_right verbose rules EOT input hrules
  have hfail : ∃ m, steps verbose rules 1023 (Engine.Running (initial EOT input)) =
      Engine.Failed (Failure.HeadOverflow 0) m ∧ m.head = TAPE_LENGTH := by
    obtain ⟨m, hm, hhead, hstate⟩ := hrun 1022 (by decide)
    obtain ⟨m1, h1, hh1⟩ :=
      (step_always_right verbose rules m hrules hstate (by omega)).2
        (by rw [hhead]; decide)
    refine ⟨m1, ?_, ?_⟩
    · rw [steps_succ, hm]; exact h1
    · rw [hh1, hhead]; decide
  obtain ⟨mf, hmf, hmfhead⟩ := hfail
  have hrunning : ∀ k, k < 1023 →
      (steps verbose rules k (Engine.Running (initial EOT input))).is_running = true := by
    intro k hk
    obtain ⟨m, hm, _, _⟩ := hrun k (by unfold TAPE_LENGTH; omega)
    rw [hm]; rfl
  refine ⟨hrun, ?_, ?_, ?_, ?_⟩
  · intro n hn
    have : n = 1023 := by unfold TAPE_LENGTH at hn; omega
    subst this
    exact ⟨mf, hmf, hmfhead⟩
  · intro n m h
    by_cases hn : n < 1023
    · have := hrunning n hn
      rw [h] at this
      simp [Engine.is_running] at this
    · obtain ⟨d, rfl⟩ : ∃ d, n = 1023 + d := ⟨n - 1023, by omega⟩
      rw [steps_add, hmf, steps_failed] at h
      cases h
  · intro fuel hfuel
    have hloop := loop_eq_some verbose rules 1023 (initial EOT input) _ hrunning hmf rfl fuel
      (by unfold TAPE_LENGTH at hfuel; omega)
    refine ⟨_, main_loop_failed fuel EOT rules argv input verbose mf 1023 _ hargs hloop,
      rfl, rfl, show ((1023 : Nat) : Int) = TAPE_LENGTH - 1 by decide, ?_⟩
    exact loop_no_output verbose rules fuel _ _ _ hloop rfl
  · intro fuel hfuel
    have hloop := loop_eq_none verbose rules fuel (initial EOT input)
      (fun k hk => hrunning k (by unfold TAPE_LENGTH at hfuel; omega))
    simp only [main, hargs, hloop]

theorem always_right_resolves (c : Symbol) :
    ∃ r, always_right[scan 0 c always_right 0]? = some r ∧
      r.dir = RIGHT ∧ r.destination = 0 := by
  obtain ⟨r, hr⟩ := resolve_some_of_mem 0 c always_right
    ⟨⟨0, c, c, RIGHT, 0⟩, List.mem_map.mpr ⟨c, List.mem_finRange c, rfl⟩, rfl, rfl⟩
  have hmem := List.getElem?_mem hr
  obtain ⟨c1, _, rfl⟩ := List.mem_map.mp hmem
  exact ⟨_, hr, rfl, rfl⟩

/-- C9 on the table `always_right` and the input `a`: the run fails with
`HeadOverflow` after 1023 iterations. -/
theorem boundary_overflow_witness :
    ∃ e, main 1023 4 always_right [[97]] = some e ∧ e.code = 1 ∧
      e.stderr = some (Failure.HeadOverflow 0) ∧ (e.steps : Int) = TAPE_LENGTH - 1 ∧
      printed_output e.stdout = none :=
  (boundary_overflow 4 always_right [[97]] [97] false always_right_resolves
    (by decide) (by decide)).2.2.2.1 1023 (by decide)

/-! ## Halting at the first step -/

/-- C10: when the first rule matching `(0, c)` has direction Halt and writes
a non-blank symbol, the run on an input (a C string: no zero byte) of at most
`TAPE_LENGTH - 2` symbols that starts with `c` halts at its first step, and
`main` returns 0 after exactly one iteration, printing the input with its
first symbol replaced by the written one. -/
theorem one_step_halting (EOT : Symbol) (rules : List rule) (argv : List (List Symbol))
    (verbose : Bool) (c : Symbol) (rest : List Symbol) (r : rule)
    (hlen : (((c :: rest).length : Nat) : Int) ≤ TAPE_LENGTH - 2)
    (hcstr : ∀ x ∈ c :: rest, x ≠ NUL)
    (hr : rules[scan 0 c rules 0]? = some r)
    (hdir : r.dir = FINAL) (hw : r.write ≠ NUL)
    (hargs : parse_args argv none false = Args.Parsed (some (c :: rest)) verbose) :
    (∃ m, step verbose rules (initial EOT (c :: rest)) = Engine.Halted m) ∧
    ∀ fuel : Nat, 1 ≤ fuel →
      ∃ e, main fuel EOT rules argv = some e ∧ e.code = 0 ∧ e.steps = 1 ∧
        printed_output e.stdout = some (some (r.write :: rest)) := by
  have hc : (initial EOT (c :: rest)).tape (initial EOT (c :: rest)).head = c := by
    have := initial_tape_input EOT (c :: rest) 0 c (by simp)
    simpa using this
  have hr0 : rules[scan (initial EOT (c :: rest)).state
      ((initial EOT (c :: rest)).tape (initial EOT (c :: rest)).head) rules 0]? = some r := by
    rw [hc]; exact hr
  have hm := step_machine verbose rules _ r hr0
  rcases step_cases verbose rules _ r hr0 with h | h | h | h
  · exact absurd hdir h.1
  · exact absurd hdir h.1
  · exact absurd hdir h.1
  · obtain ⟨_, m1, h1⟩ := h
    rw [h1] at hm
    simp only [Engine.machine, initial_head] at hm
    refine ⟨⟨m1, h1⟩, ?_⟩
    intro fuel hfuel
    obtain ⟨f, rfl⟩ : ∃ f, fuel = f + 1 := ⟨fuel - 1, by omega⟩
    have hloop := loop_succ_halted verbose rules f _ m1 h1
    refine ⟨_, main_halted (f + 1) EOT rules argv _ verbose m1 1 hargs hloop, rfl, rfl, ?_⟩
    have hno := loop_no_output verbose rules (f + 1) _ _ _ hloop rfl
    rw [finish_output verbose m1 1 hno, tape_cells_from_one, hm.1]
    congr 1
    apply cstring_eq
    · intro i c1 hi
      cases i with
      | zero =>
        simp only [List.getElem?_cons_zero, Option.some.injEq] at hi
        subst hi
        simp only [Nat.cast_zero, add_zero]
        exact write_same _ _ _
      | succ i =>
        rw [write_other _ _ _ _ (by push_cast; omega)]
        exact initial_tape_input EOT (c :: rest) (i + 1) c1 (by simpa using hi)
    · intro x hx
      rcases List.mem_cons.mp hx with hx | hx
      · rw [hx]; exact hw
      · exact hcstr x (List.mem_cons_of_mem _ hx)
    · rw [write_other _ _ _ _ (by simp only [List.length_cons]; push_cast; omega)]
      have := initial_tape_terminator EOT (c :: rest)
      simpa using this
    · simp only [List.length_cons] at hlen ⊢
      unfold TAPE_LENGTH at hlen
      omega

/-- C10 on the table `[(0, 'a') → ('b', Halt, 0)]` and the input `a`: one
iteration, output `b`. -/
theorem one_step_halting_witness :
    ∃ e, main 1 4 [⟨0, 97, 98, FINAL, 0⟩] [[97]] = some e ∧ e.code = 0 ∧ e.steps = 1 ∧
      printed_output e.stdout = some (some [98]) :=
  (one_step_halting 4 [⟨0, 97, 98, FINAL, 0⟩] [[97]] false 97 [] ⟨0, 97, 98, FINAL, 0⟩
    (by decide) (by simp [NUL]) (by decide) rfl (by decide) (by decide)).2 1 (le_refl 1)

/-! ## The multi-step example -/

/-- C11: with the table `[(0, 'a') → ('a', Right, 1), (1, blank) → ('!', Halt, 1)]`
and the input `a`, the first step leaves the engine running with head 2 and
state 1 on a blank cell, the second step writes `!` at index 2 and halts,
and `main` returns 0 after exactly two iterations with the output `a!`; one
iteration is not enough to end the run. -/
theorem multi_step_example (EOT : Symbol) :
    (∃ m, steps false multi_step_rules 1 (Engine.Running (initial EOT [97])) =
        Engine.Running m ∧ m.head = 2 ∧ m.state = 1 ∧ m.tape m.head = NUL) ∧
    (∃ m, steps false multi_step_rules 2 (Engine.Running (initial EOT [97])) =
        Engine.Halted m ∧ m.tape 2 = 33 ∧ m.tape 1 = 97 ∧ m.head = 2 ∧ m.state = 1) ∧
    main 1 EOT multi_step_rules [[97]] = none ∧
    (∀ fuel : Nat, 2 ≤ fuel → main fuel EOT multi_step_rules [[97]] =
      some ⟨0, [Printed.Output (some [97, 33])], none, 2⟩) ∧
    (∀ fuel : Nat, 2 ≤ fuel →
      (main fuel EOT multi_step_rules [opt_v, [97]]).map
          (fun e => (e.code, e.steps, printed_output e.stdout)) =
        some (0, 2, some (some [97, 33]))) := by
  refine ⟨⟨_, rfl, rfl, rfl, rfl⟩, ⟨_, rfl, rfl, rfl, rfl, rfl⟩, rfl, ?_, ?_⟩
  · intro fuel hfuel
    obtain ⟨f, rfl⟩ : ∃ f, fuel = f + 2 := ⟨fuel - 2, by omega⟩
    rfl
  · intro fuel hfuel
    obtain ⟨f, rfl⟩ : ∃ f, fuel = f + 2 := ⟨fuel - 2, by omega⟩
    rfl

/-! ## The empty input -/

/-- A run whose first step halts: `main` returns 0 after one iteration and
prints the string found at `tape + 1` once the rule has written. -/
theorem main_halts_first_step (EOT : Symbol) (rules : List rule) (argv : List (List Symbol))
    (verbose : Bool) (input : List Symbol) (r : rule)
    (hr : rules[scan 0 ((initial EOT input).tape 1) rules 0]? = some r)
    (hdir : r.dir = FINAL)
    (hargs : parse_args argv none false = Args.Parsed (some input) verbose)
    (fuel : Nat) (hfuel : 1 ≤ fuel) :
    ∃ e, main fuel EOT rules argv = some e ∧ e.code = 0 ∧ e.stderr = none ∧ e.steps = 1 ∧
      printed_output e.stdout =
        some (cstring (write (initial EOT input).tape 1 r.write) 1023 1) := by
  have hm := step_machine verbose rules (initial EOT input) r hr
  rcases step_cases verbose rules (initial EOT input) r hr with h | h | h | h
  · exact absurd hdir h.1
  · exact absurd hdir h.1
  · exact absurd hdir h.1
  · obtain ⟨_, m1, h1⟩ := h
    rw [h1] at hm
    simp only [Engine.machine, initial_head] at hm
    obtain ⟨f, rfl⟩ : ∃ f, fuel = f + 1 := ⟨fuel - 1, by omega⟩
    have hloop := loop_succ_halted verbose rules f _ m1 h1
    refine ⟨_, main_halted (f + 1) EOT rules argv _ verbose m1 1 hargs hloop, rfl, rfl, rfl,
      ?_⟩
    have hno := loop_no_output verbose rules (f + 1) _ _ _ hloop rfl
    rw [finish_output verbose m1 1 hno, tape_cells_from_one, hm.1]

/-- C12 fails on the code as stated: on the table `[(0, blank) → ('!', Halt, 0)]`,
whose first rule for `(0, blank)` halts, the run on the empty input halts
after one step but prints `!`, not the empty region: the halting step writes
before the loop ends. -/
theorem empty_input_output_not_empty :
    write_on_blank[scan 0 NUL write_on_blank 0]? = some ⟨0, NUL, 33, FINAL, 0⟩ ∧
    main 1 4 write_on_blank [[]] = some ⟨0, [Printed.Output (some [33])], none, 1⟩ ∧
    printed_output [Printed.Output (some [33])] ≠ some (some []) := by
  refine ⟨by decide, by decide, by decide⟩

/-- C12, amended: when the first rule matching `(0, blank)` has direction
Halt, the run on the empty input does not fail: `main` returns 0 after exactly
one iteration, and the printed region is empty when that rule writes the
blank and is the single written symbol otherwise. -/
theorem empty_input_halts (EOT : Symbol) (rules : List rule) (argv : List (List Symbol))
    (verbose : Bool) (r : rule)
    (hr : rules[scan 0 NUL rules 0]? = some r) (hdir : r.dir = FINAL)
    (hargs : parse_args argv none false = Args.Parsed (some []) verbose) :
    ∀ fuel : Nat, 1 ≤ fuel →
      ∃ e, main fuel EOT rules argv = some e ∧ e.code = 0 ∧ e.stderr = none ∧ e.steps = 1 ∧
        printed_output e.stdout = some (some (if r.write = NUL then [] else [r.write])) := by
  intro fuel hfuel
  have h1 : (initial EOT []).tape 1 = NUL := by
    have := initial_tape_terminator EOT []
    simpa using this
  obtain ⟨e, he, hc, herr, hs, hout⟩ :=
    main_halts_first_step EOT rules argv verbose [] r (by rw [h1]; exact hr) hdir hargs
      fuel hfuel
  refine ⟨e, he, hc, herr, hs, ?_⟩
  rw [hout]
  congr 1
  by_cases hw : r.write = NUL
  · rw [if_pos hw]
    have : write (initial EOT []).tape 1 r.write 1 = 0 := by rw [write_same]; exact hw
    simp [cstring, this]
  · rw [if_neg hw]
    apply cstring_eq
    · intro i c hi
      cases i with
      | zero =>
        simp only [List.getElem?_cons_zero, Option.some.injEq] at hi
        subst hi
        simp only [Nat.cast_zero, add_zero]
        exact write_same _ _ _
      | succ i => simp at hi
    · intro x hx
      rw [List.mem_singleton] at hx
      rw [hx]; exact hw
    · rw [write_other _ _ _ _ (by simp)]
      have := initial_tape_rest EOT [] 2 (by simp)
      rw [show (1 : Int) + (([r.write].length : Nat) : Int) = 2 by simp, this]
      simp [TAPE_LENGTH]
    · simp

/-- C12 amended, on the table `[(0, blank) → (blank, Halt, 0)]` and the empty
input: the run halts after one step with an empty region. -/
theorem empty_input_halts_witness :
    ∃ e, main 1 4 [⟨0, NUL, NUL, FINAL, 0⟩] [[]] = some e ∧ e.code = 0 ∧ e.stderr = none ∧
      e.steps = 1 ∧ printed_output e.stdout = some (some []) :=
  empty_input_halts 4 [⟨0, NUL, NUL, FINAL, 0⟩] [[]] false ⟨0, NUL, NUL, FINAL, 0⟩
    (by decide) rfl (by decide) 1 (le_refl 1)

/-! ## The exit contract -/

/-- The loop never ends on a running engine. -/
theorem loop_not_running (verbose : Bool) (rules : List rule) (fuel : Nat) :
    ∀ (m : Machine) (e : Engine) (n : Nat), loop verbose rules fuel m = some (e, n) →
      e.is_running = false := by
  induction fuel with
  | zero => intro m e n h; simp [loop] at h
  | succ fuel ih =>
    intro m e n h
    cases hstep : step verbose rules m with
    | Running m1 =>
      rw [loop_succ_running verbose rules fuel m m1 hstep] at h
      cases hl : loop verbose rules fuel m1 with
      | none => rw [hl] at h; simp at h
      | some p =>
        rw [hl] at h
        simp only [Option.map_some', Option.some.injEq, Prod.mk.injEq] at h
        exact h.1 ▸ ih m1 p.1 p.2 hl
    | Halted m1 =>
      rw [loop_succ_halted verbose rules fuel m m1 hstep] at h
      simp only [Option.some.injEq, Prod.mk.injEq] at h
      rw [← h.1]; rfl
    | Failed f m1 =>
      rw [loop_succ_failed verbose rules fuel m m1 f hstep] at h
      simp only [Option.some.injEq, Prod.mk.injEq] at h
      rw [← h.1]; rfl

/-- The only failures of a step are the three fatal conditions of the loop. -/
theorem step_failure_kind (verbose : Bool) (rules : List rule) (m m1 : Machine) (f : Failure)
    (h : step verbose rules m = Engine.Failed f m1) : f ≠ Failure.MissingInput := by
  cases hr : rules[scan m.state (m.tape m.head) rules 0]? with
  | none =>
    rw [step_of_no_rule verbose rules m hr] at h
    injection h with h1 _
    rw [← h1]; intro h2; cases h2
  | some r =>
    rcases step_cases verbose rules m r hr with h1 | h1 | h1 | h1
    · obtain ⟨_, _, m2, h2⟩ := h1
      rw [h2] at h; injection h with h3 _
      rw [← h3]; intro h4; cases h4
    · obtain ⟨_, _, _, m2, h2⟩ := h1
      rw [h2] at h; injection h with h3 _
      rw [← h3]; intro h4; cases h4
    · obtain ⟨_, _, _, m2, h2⟩ := h1
      rw [h2] at h; cases h
    · obtain ⟨_, m2, h2⟩ := h1
      rw [h2] at h; cases h

/-- C13: a run of `main` on an input that terminates returns 0 exactly when
the loop ended in `Halted`, and then its last print is the final tape region
(after the trace and the label when verbose); when the loop ended on a fatal
condition it returns 1, reports that condition, and prints nothing but the
trace: no final tape region, not even partially. The exit code is 0 or 1. -/
theorem exit_contract (fuel : Nat) (EOT : Symbol) (rules : List rule)
    (argv : List (List Symbol)) (input : List Symbol) (verbose : Bool) (e : Exit)
    (hargs : parse_args argv none false = Args.Parsed (some input) verbose)
    (hmain : main fuel EOT rules argv = some e) :
    (e.code = 0 ↔
      ∃ m n, loop verbose rules fuel (initial EOT input) = some (Engine.Halted m, n)) ∧
    (e.code = 1 ↔
      ∃ f m n, loop verbose rules fuel (initial EOT input) = some (Engine.Failed f m, n)) ∧
    (e.code = 0 ∨ e.code = 1) ∧
    (∀ m n, loop verbose rules fuel (initial EOT input) = some (Engine.Halted m, n) →
      e.stderr = none ∧ e.steps = n ∧
      e.stdout = (if verbose then m.stdout ++ [Printed.OutputLabel] else m.stdout) ++
        [Printed.Output (cstring m.tape (TAPE_LENGTH - 1).toNat 1)] ∧
      printed_output e.stdout = some (cstring m.tape (TAPE_LENGTH - 1).toNat 1)) ∧
    (∀ f m n, loop verbose rules fuel (initial EOT input) = some (Engine.Failed f m, n) →
      e.stderr = some f ∧ e.steps = n ∧ e.stdout = m.stdout ∧
      printed_output e.stdout = none ∧ (verbose = false → e.stdout = [])) := by
  cases hl : loop verbose rules fuel (initial EOT input) with
  | none => simp [main, hargs, hl] at hmain
  | some p =>
    obtain ⟨en, n⟩ := p
    have hno := loop_no_output verbose rules fuel _ _ _ hl rfl
    cases en with
    | Running m =>
      have := loop_not_running verbose rules fuel _ _ _ hl
      simp [Engine.is_running] at this
    | Halted m =>
      have he := main_halted fuel EOT rules argv input verbose m n hargs hl
      rw [hmain] at he
      injection he with he
      subst he
      refine ⟨⟨fun _ => ⟨m, n, rfl⟩, fun _ => rfl⟩, ⟨fun h => ?_, fun h => ?_⟩, Or.inl rfl,
        ?_, ?_⟩
      · simp [finish] at h
      · obtain ⟨f, m1, n1, h1⟩ := h; cases h1
      · intro m1 n1 h1
        injection h1 with h1
        injection h1 with h2 h3
        injection h2 with h2
        subst h2; subst h3
        exact ⟨rfl, rfl, rfl, finish_output verbose m n hno⟩
      · intro f m1 n1 h1; cases h1
    | Failed f m =>
      have he := main_loop_failed fuel EOT rules argv input verbose m n f hargs hl
      rw [hmain] at he
      injection he with he
      subst he
      refine ⟨⟨fun h => ?_, fun h => ?_⟩, ⟨fun _ => ⟨f, m, n, rfl⟩, fun _ => rfl⟩, Or.inr rfl,
        ?_, ?_⟩
      · simp at h
      · obtain ⟨m1, n1, h1⟩ := h; cases h1
      · intro m1 n1 h1; cases h1
      · intro f1 m1 n1 h1
        injection h1 with h1
        injection h1 with h2 h3
        injection h2 with h2 h4
        subst h2; subst h3; subst h4
        refine ⟨rfl, rfl, rfl, hno, ?_⟩
        intro hv
        subst hv
        have hsil : ∀ (fuel : Nat) (m0 : Machine) (e0 : Engine) (k : Nat),
            loop false rules fuel m0 = some (e0, k) → m0.stdout = [] →
              e0.machine.stdout = [] := by
          intro fuel
          induction fuel with
          | zero => intro m0 e0 k h; simp [loop] at h
          | succ fuel ih =>
            intro m0 e0 k h h0
            have hs : (step false rules m0).machine.stdout = [] := by
              cases hr : rules[scan m0.state (m0.tape m0.head) rules 0]? with
              | none => rw [step_of_no_rule false rules m0 hr]; exact h0
              | some r =>
                rw [step_of_resolve false rules m0 r hr, apply_rule_stdout]
                exact h0
            cases hstep : step false rules m0 with
            | Running m2 =>
              rw [hstep] at hs
              rw [loop_succ_running false rules fuel m0 m2 hstep] at h
              cases hl2 : loop false rules fuel m2 with
              | none => rw [hl2] at h; simp at h
              | some p =>
                rw [hl2] at h
                simp only [Option.map_some', Option.some.injEq, Prod.mk.injEq] at h
                exact h.1 ▸ ih m2 p.1 p.2 hl2 hs
            | Halted m2 =>
              rw [hstep] at hs
              rw [loop_succ_halted false rules fuel m0 m2 hstep] at h
              simp only [Option.some.injEq, Prod.mk.injEq] at h
              rw [← h.1]; exact hs
            | Failed f2 m2 =>
              rw [hstep] at hs
              rw [loop_succ_failed false rules fuel m0 m2 f2 hstep] at h
              simp only [Option.some.injEq, Prod.mk.injEq] at h
              rw [← h.1]; exact hs
        exact hsil fuel _ _ _ hl rfl

/-- C13 on the table `[(0, 'a') → ('b', Halt, 0)]` and the input `a`: the run
returns 0 and the loop ended in `Halted`. -/
theorem exit_contract_witness :
    (0 : Int) = 0 ↔ ∃ m n, loop false [⟨0, 97, 98, FINAL, 0⟩] 1 (initial 4 [97]) =
      some (Engine.Halted m, n) :=
  (exit_contract 1 4 [⟨0, 97, 98, FINAL, 0⟩] [[97]] [97] false
    ⟨0, [Printed.Output (some [98])], none, 1⟩ (by decide) (by decide)).1

/-! ## Missing input -/

/-- An argument list of `-v` flags only leaves `input` unset. -/
theorem parse_args_flags (argv : List (List Symbol)) (h : ∀ a ∈ argv, a = opt_v)
    (verbose : Bool) : ∃ v, parse_args argv none verbose = Args.Parsed none v := by
  induction argv generalizing verbose with
  | nil => exact ⟨verbose, rfl⟩
  | cons a rest ih =>
    have ha : a = opt_v := h a (List.mem_cons_self _ _)
    subst ha
    have h1 : ¬ (opt_v = opt_h ∨ opt_v = opt_help ∨ opt_v = opt_long_help) := by decide
    rw [parse_args, if_neg h1, if_pos rfl]
    exact ih (fun a ha => h a (List.mem_cons_of_mem _ ha)) true

/-- C16: for every argument list that supplies no input string (no argument
at all, or `-v` flags only), `main` fails with `MissingInput`: it returns 1
with nothing printed and no iteration of the step loop executed, whatever
the fuel (also none), the sentinel and the rule table, so without the loop
being entered. -/
theorem missing_input (fuel : Nat) (EOT : Symbol) (rules : List rule)
    (argv : List (List Symbol)) (h : ∀ a ∈ argv, a = opt_v) :
    main fuel EOT rules argv =
      some { code := 1, stdout := [], stderr := some Failure.MissingInput, steps := 0 } := by
  obtain ⟨v, hv⟩ := parse_args_flags argv h false
  simp only [main, hv]

/-- C16 on the argument list `-v -v`, with no fuel at all. -/
theorem missing_input_witness :
    main 0 4 multi_step_rules [opt_v, opt_v] =
      some { code := 1, stdout := [], stderr := some Failure.MissingInput, steps := 0 } :=
  missing_input 0 4 multi_step_rules [opt_v, opt_v] (by decide)

/-! ## The state in the boundary diagnostics -/

/-- C17: when a step fails with `HeadUnderflow` or `HeadOverflow`, the state
in the diagnostic is the state field of the applied rule, which is the state
of the machine before the step, while the machine at that point already has
the rule's `destination` as its state and the rule's `write` in the cell the
head was on. -/
theorem boundary_diagnostic_state (verbose : Bool) (rules : List rule) (m m1 : Machine)
    (s : Int)
    (h : step verbose rules m = Engine.Failed (Failure.HeadUnderflow s) m1 ∨
      step verbose rules m = Engine.Failed (Failure.HeadOverflow s) m1) :
    ∃ r, rules[scan m.state (m.tape m.head) rules 0]? = some r ∧
      s = r.state ∧ s = m.state ∧ m1.state = r.destination ∧
      m1.tape m.head = r.write ∧ m1.head = m.head + r.dir := by
  cases hr : rules[scan m.state (m.tape m.head) rules 0]? with
  | none =>
    rw [step_of_no_rule verbose rules m hr] at h
    rcases h with h | h <;> (injection h with h1 _; cases h1)
  | some r =>
    have hkey := scan_matches _ _ _ _ hr
    have hm := step_machine verbose rules m r hr
    have hs : s = r.state := by
      rcases step_cases verbose rules m r hr with h1 | h1 | h1 | h1
      · obtain ⟨_, _, m2, h2⟩ := h1
        rw [h2] at h
        rcases h with h | h
        · injection h with h3 _; injection h3 with h3; exact h3.symm
        · injection h with h3 _; cases h3
      · obtain ⟨_, _, _, m2, h2⟩ := h1
        rw [h2] at h
        rcases h with h | h
        · injection h with h3 _; cases h3
        · injection h with h3 _; injection h3 with h3; exact h3.symm
      · obtain ⟨_, _, _, m2, h2⟩ := h1
        rw [h2] at h
        rcases h with h | h <;> cases h
      · obtain ⟨_, m2, h2⟩ := h1
        rw [h2] at h
        rcases h with h | h <;> cases h
    have hmach : (step verbose rules m).machine = m1 := by
      rcases h with h | h <;> rw [h] <;> rfl
    rw [hmach] at hm
    refine ⟨r, rfl, hs, hs.trans hkey.1, hm.2.2.1, ?_, hm.2.1⟩
    rw [hm.1]; exact write_same _ _ _

/-- C17 on a rule that moves left from cell 0 into state 7: the diagnostic
reports state 0 while the machine is already in state 7. -/
theorem boundary_diagnostic_state_witness :
    step false left_from_sentinel at_left_end =
      Engine.Failed (Failure.HeadUnderflow 0) past_left_end ∧
    ∃ r, left_from_sentinel[scan at_left_end.state (at_left_end.tape at_left_end.head)
        left_from_sentinel 0]? = some r ∧
      (0 : Int) = r.state ∧ (0 : Int) = at_left_end.state ∧
      past_left_end.state = r.destination ∧
      past_left_end.tape at_left_end.head = r.write ∧
      past_left_end.head = at_left_end.head + r.dir :=
  ⟨rfl, boundary_diagnostic_state false left_from_sentinel at_left_end past_left_end 0
    (Or.inl rfl)⟩

/-! ## A run that never ends -/

theorem ping_pong_step (verbose : Bool) (m : Machine) (h : ping_pong_inv m) :
    ∃ m1, step verbose ping_pong m = Engine.Running m1 ∧ ping_pong_inv m1 := by
  obtain ⟨h1, h2, h3⟩ := h
  rcases h3 with ⟨hh, hs⟩ | ⟨hh, hs⟩
  · have hr : ping_pong[scan m.state (m.tape m.head) ping_pong 0]? =
        some ⟨0, 97, 97, RIGHT, 1⟩ := by
      rw [hs, hh, h1]; decide
    have hm := step_machine verbose ping_pong m _ hr
    rcases step_cases verbose ping_pong m _ hr with h | h | h | h
    · have := h.2.1; rw [hh] at this; exact absurd this (by decide)
    · have := h.2.2.1; rw [hh] at this; exact absurd this (by decide)
    · obtain ⟨_, _, _, m1, hm1⟩ := h
      rw [hm1] at hm
      simp only [Engine.machine] at hm
      refine ⟨m1, hm1, ?_, ?_, Or.inr ⟨?_, hm.2.2.1⟩⟩
      · rw [hm.1, hh]; exact write_same _ _ _
      · rw [hm.1, hh, write_other _ _ _ _ (by decide)]; exact h2
      · rw [hm.2.1, hh]; rfl
    · exact absurd h.1 (by decide)
  · have hr : ping_pong[scan m.state (m.tape m.head) ping_pong 0]? =
        some ⟨1, NUL, NUL, LEFT, 0⟩ := by
      rw [hs, hh, h2]; decide
    have hm := step_machine verbose ping_pong m _ hr
    rcases step_cases verbose ping_pong m _ hr with h | h | h | h
    · have := h.2.1; rw [hh] at this; exact absurd this (by decide)
    · have := h.2.2.1; rw [hh] at this; exact absurd this (by decide)
    · obtain ⟨_, _, _, m1, hm1⟩ := h
      rw [hm1] at hm
      simp only [Engine.machine] at hm
      refine ⟨m1, hm1, ?_, ?_, Or.inl ⟨?_, hm.2.2.1⟩⟩
      · rw [hm.1, hh, write_other _ _ _ _ (by decide)]; exact h1
      · rw [hm.1, hh]; exact write_same _ _ _
      · rw [hm.2.1, hh]; rfl
    · exact absurd h.1 (by decide)

theorem ping_pong_initial (EOT : Symbol) : ping_pong_inv (initial EOT [97]) := by
  refine ⟨?_, ?_, Or.inl ⟨rfl, rfl⟩⟩
  · have := initial_tape_input EOT [97] 0 97 (by simp)
    simpa using this
  · have := initial_tape_terminator EOT [97]
    simpa using this

/-- C18: on the table `[(0, 'a') → ('a', Right, 1), (1, blank) → (blank, Left, 0)]`
and the input `a` the engine is still running after every number of steps:
it is never `Halted` and never `Failed`, and `main` gives no result whatever
the fuel, with or without `-v`. -/
theorem never_terminates (EOT : Symbol) (verbose : Bool) :
    (∀ n : Nat, ∃ m, steps verbose ping_pong n (Engine.Running (initial EOT [97])) =
      Engine.Running m) ∧
    (∀ fuel : Nat, main fuel EOT ping_pong [[97]] = none) ∧
    (∀ fuel : Nat, main fuel EOT ping_pong [opt_v, [97]] = none) := by
  have hrun : ∀ (v : Bool) (n : Nat),
      ∃ m, steps v ping_pong n (Engine.Running (initial EOT [97])) = Engine.Running m ∧
        ping_pong_inv m := by
    intro v n
    induction n with
    | zero => exact ⟨_, rfl, ping_pong_initial EOT⟩
    | succ n ih =>
      obtain ⟨m, hm, hinv⟩ := ih
      obtain ⟨m1, h1, hinv1⟩ := ping_pong_step v m hinv
      exact ⟨m1, by rw [steps_succ, hm]; exact h1, hinv1⟩
  have hloop : ∀ (v : Bool) (fuel : Nat), loop v ping_pong fuel (initial EOT [97]) = none := by
    intro v fuel
    apply loop_eq_none
    intro k _
    obtain ⟨m, hm, _⟩ := hrun v k
    rw [hm]; rfl
  refine ⟨fun n => ?_, fun fuel => ?_, fun fuel => ?_⟩
  · obtain ⟨m, hm, _⟩ := hrun verbose n
    exact ⟨m, hm⟩
  · have hp : parse_args [[97]] none false = Args.Parsed (some [97]) false := by decide
    simp only [main, hp, hloop false fuel]
  · have hp : parse_args [opt_v, [97]] none false = Args.Parsed (some [97]) true := by decide
    simp only [main, hp, hloop true fuel]

/-! ## The sentinels -/

/-- The engine the loop ends in is the engine after that many iterations. -/
theorem loop_steps (verbose : Bool) (rules : List rule) (fuel : Nat) :
    ∀ (m : Machine) (e : Engine) (n : Nat), loop verbose rules fuel m = some (e, n) →
      steps verbose rules n (Engine.Running m) = e := by
  induction fuel with
  | zero => intro m e n h; simp [loop] at h
  | succ fuel ih =>
    intro m e n h
    cases hstep : step verbose rules m with
    | Running m1 =>
      rw [loop_succ_running verbose rules fuel m m1 hstep] at h
      cases hl : loop verbose rules fuel m1 with
      | none => rw [hl] at h; simp at h
      | some p =>
        rw [hl] at h
        simp only [Option.map_some', Option.some.injEq, Prod.mk.injEq] at h
        rw [← h.1, ← h.2, steps_running, hstep]
        exact ih m1 p.1 p.2 hl
    | Halted m1 =>
      rw [loop_succ_halted verbose rules fuel m m1 hstep] at h
      simp only [Option.some.injEq, Prod.mk.injEq] at h
      rw [← h.1, ← h.2, steps_running, hstep]; rfl
    | Failed f m1 =>
      rw [loop_succ_failed verbose rules fuel m m1 f hstep] at h
      simp only [Option.some.injEq, Prod.mk.injEq] at h
      rw [← h.1, ← h.2, steps_running, hstep]; rfl

/-- A step from a machine with both sentinels in place and the head inside
the tape, on a table that has no rule for the sentinel and only moves by one
cell: a head on an end cell finds no rule, and any other step keeps the
sentinels and the head inside the tape. -/
theorem sentinel_step (EOT : Symbol) (rules : List rule) (verbose : Bool) (m : Machine)
    (hread : ∀ r ∈ rules, r.read ≠ EOT)
    (hdirs : ∀ r ∈ rules, r.dir = LEFT ∨ r.dir = RIGHT ∨ r.dir = FINAL)
    (h0 : m.tape 0 = EOT) (hN : m.tape (TAPE_LENGTH - 1) = EOT)
    (hhead : 0 ≤ m.head ∧ m.head ≤ TAPE_LENGTH - 1) :
    sentinel_inv EOT (step verbose rules m) ∧
    ((m.head = 0 ∨ m.head = TAPE_LENGTH - 1) → step verbose rules m =
      Engine.Failed (Failure.NoMatchingRule m.state EOT) (trace_tape verbose m)) := by
  cases hr : rules[scan m.state (m.tape m.head) rules 0]? with
  | none =>
    have hs := step_of_no_rule verbose rules m hr
    constructor
    · rw [hs]
      refine ⟨by simpa [Engine.machine] using h0, by simpa [Engine.machine] using hN, ?_, ?_⟩
      · intro h; simp [Engine.is_running] at h
      · intro s m1
        constructor <;> intro h <;> (injection h with h1 _; cases h1)
    · intro hend
      rw [hs]
      rcases hend with hend | hend <;> rw [hend] <;> simp [h0, hN]
  | some r =>
    have hmem := List.getElem?_mem hr
    have hkey := scan_matches _ _ _ _ hr
    have hne : m.tape m.head ≠ EOT := by rw [← hkey.2]; exact hread r hmem
    have hlo : m.head ≠ 0 := by intro h; rw [h] at hne; exact hne h0
    have hhi : m.head ≠ TAPE_LENGTH - 1 := by intro h; rw [h] at hne; exact hne hN
    have hm := step_machine verbose rules m r hr
    have hd := hdirs r hmem
    have hnew : 0 ≤ m.head + r.dir ∧ m.head + r.dir < TAPE_LENGTH := by
      unfold LEFT RIGHT FINAL at hd
      rcases hd with hd | hd | hd <;> rw [hd] <;> constructor <;> omega
    constructor
    · refine ⟨?_, ?_, ?_, ?_⟩
      · rw [hm.1, write_other _ _ _ _ (Ne.symm hlo)]; exact h0
      · rw [hm.1, write_other _ _ _ _ (Ne.symm hhi)]; exact hN
      · intro _; rw [hm.2.1]; constructor <;> omega
      · intro s m1
        rcases step_cases verbose rules m r hr with h | h | h | h
        · omega
        · omega
        · obtain ⟨_, _, _, m2, h2⟩ := h
          rw [h2]; constructor <;> intro h3 <;> cases h3
        · obtain ⟨_, m2, h2⟩ := h
          rw [h2]; constructor <;> intro h3 <;> cases h3
    · intro hend
      rcases hend with hend | hend
      · exact absurd hend hlo
      · exact absurd hend hhi

/-- The sentinel invariant holds after every number of iterations. -/
theorem sentinel_steps (EOT : Symbol) (rules : List rule) (verbose : Bool)
    (hread : ∀ r ∈ rules, r.read ≠ EOT)
    (hdirs : ∀ r ∈ rules, r.dir = LEFT ∨ r.dir = RIGHT ∨ r.dir = FINAL)
    (e : Engine) (he : sentinel_inv EOT e) (n : Nat) :
    sentinel_inv EOT (steps verbose rules n e) := by
  induction n with
  | zero => exact he
  | succ n ih =>
    rw [steps_succ]
    cases hs : steps verbose rules n e with
    | Running m =>
      rw [hs] at ih
      exact (sentinel_step EOT rules verbose m hread hdirs ih.1 ih.2.1 (ih.2.2.1 rfl)).1
    | Halted m => rw [hs] at ih; exact ih
    | Failed f m => rw [hs] at ih; exact ih

theorem sentinel_initial (EOT : Symbol) (input : List Symbol)
    (hlen : (input.length : Int) ≤ TAPE_LENGTH - 3) :
    sentinel_inv EOT (Engine.Running (initial EOT input)) := by
  have h := initial_configuration EOT input hlen
  refine ⟨h.1, h.2.1, ?_, ?_⟩
  · intro _
    exact ⟨show (0 : Int) ≤ 1 by decide, show (1 : Int) ≤ 1024 - 1 by decide⟩
  · intro s m; constructor <;> intro h1 <;> cases h1

/-- C19: on a rule table with no rule that reads the boundary sentinel (and
whose directions are Left, Right or Halt, the only ones a rule has), and an
input of at most `TAPE_LENGTH - 3` symbols without the sentinel, every engine
reached keeps the sentinel in `tape[0]` and `tape[TAPE_LENGTH - 1]`, no step
fails with `HeadUnderflow` or `HeadOverflow`, a running head on cell 0 or
`TAPE_LENGTH - 1` makes the next step fail with `NoMatchingRule` on the
sentinel, and no run of `main` reports a tape-bound failure. -/
theorem sentinels_guard (EOT : Symbol) (rules : List rule) (verbose : Bool)
    (input : List Symbol)
    (hread : ∀ r ∈ rules, r.read ≠ EOT)
    (hdirs : ∀ r ∈ rules, r.dir = LEFT ∨ r.dir = RIGHT ∨ r.dir = FINAL)
    (hlen : (input.length : Int) ≤ TAPE_LENGTH - 3)
    (_hinput : ∀ c ∈ input, c ≠ EOT) :
    (∀ n : Nat,
      (steps verbose rules n (Engine.Running (initial EOT input))).machine.tape 0 = EOT ∧
      (steps verbose rules n (Engine.Running (initial EOT input))).machine.tape
        (TAPE_LENGTH - 1) = EOT) ∧
    (∀ (n : Nat) (s : Int) (m : Machine),
      steps verbose rules n (Engine.Running (initial EOT input)) ≠
        Engine.Failed (Failure.HeadUnderflow s) m ∧
      steps verbose rules n (Engine.Running (initial EOT input)) ≠
        Engine.Failed (Failure.HeadOverflow s) m) ∧
    (∀ (n : Nat) (m : Machine),
      steps verbose rules n (Engine.Running (initial EOT input)) = Engine.Running m →
      (m.head = 0 ∨ m.head = TAPE_LENGTH - 1) →
      steps verbose rules (n + 1) (Engine.Running (initial EOT input)) =
        Engine.Failed (Failure.NoMatchingRule m.state EOT) (trace_tape verbose m)) ∧
    (∀ (fuel : Nat) (argv : List (List Symbol)) (e : Exit) (s : Int),
      parse_args argv none false = Args.Parsed (some input) verbose →
      main fuel EOT rules argv = some e →
      e.stderr ≠ some (Failure.HeadUnderflow s) ∧
        e.stderr ≠ some (Failure.HeadOverflow s)) := by
  have hinv := sentinel_steps EOT rules verbose hread hdirs _ (sentinel_initial EOT input hlen)
  refine ⟨fun n => ⟨(hinv n).1, (hinv n).2.1⟩, fun n s m => (hinv n).2.2.2 s m, ?_, ?_⟩
  · intro n m hn hend
    have h := hinv n
    rw [hn] at h
    rw [steps_succ, hn]
    exact (sentinel_step EOT rules verbose m hread hdirs h.1 h.2.1 (h.2.2.1 rfl)).2 hend
  · intro fuel argv e s hargs hmain
    cases hl : loop verbose rules fuel (initial EOT input) with
    | none => simp [main, hargs, hl] at hmain
    | some p =>
      obtain ⟨en, n⟩ := p
      have hsteps := loop_steps verbose rules fuel _ _ _ hl
      have h := (hinv n).2.2.2
      rw [hsteps] at h
      cases en with
      | Running m =>
        have := loop_not_running verbose rules fuel _ _ _ hl
        simp [Engine.is_running] at this
      | Halted m =>
        have he := main_halted fuel EOT rules argv input verbose m n hargs hl
        rw [hmain] at he
        injection he with he
        subst he
        constructor <;> intro h1 <;> simp [finish] at h1
      | Failed f m =>
        have he := main_loop_failed fuel EOT rules argv input verbose m n f hargs hl
        rw [hmain] at he
        injection he with he
        subst he
        constructor
        · intro h1
          simp only [Option.some.injEq] at h1
          exact (h s m).1 (by rw [h1])
        · intro h1
          simp only [Option.some.injEq] at h1
          exact (h s m).2 (by rw [h1])

/-- C19 on the table `[(0, 'a') → ('a', Left, 0)]`, the sentinel 4 and the
input `a`: the head reaches cell 0 after one step and the run fails with
`NoMatchingRule` on the sentinel, after two iterations. -/
theorem sentinels_guard_witness :
    main 2 4 left_on_a [[97]] = some ⟨1, [], some (Failure.NoMatchingRule 0 4), 2⟩ ∧
    ∀ s : Int, some (Failure.NoMatchingRule 0 4) ≠ some (Failure.HeadUnderflow s) ∧
      some (Failure.NoMatchingRule 0 4) ≠ some (Failure.HeadOverflow s) :=
  ⟨by decide, fun s =>
    (sentinels_guard 4 left_on_a false [97] (by decide) (by decide) (by decide)
      (by simp)).2.2.2 2 [[97]] ⟨1, [], some (Failure.NoMatchingRule 0 4), 2⟩ s
      (by decide) (by decide)⟩

/-! ## The verbose flag -/

theorem trace_tape_silent (verbose : Bool) (m : Machine) :
    (trace_tape verbose m).silent = m.silent := by
  unfold trace_tape; split <;> rfl

theorem apply_rule_silent (verbose : Bool) (i : Nat) (r : rule) (m : Machine) :
    (apply_rule verbose i r m).silent = apply_rule false i r m.silent := by
  unfold apply_rule
  simp only [Machine.silent]
  split
  · rfl
  · split
    · rfl
    · split <;> rfl

theorem step_silent (verbose : Bool) (rules : List rule) (m : Machine) :
    (step verbose rules m).silent = step false rules m.silent := by
  cases hr : rules[scan m.state (m.tape m.head) rules 0]? with
  | none =>
    rw [step_of_no_rule verbose rules m hr, step_of_no_rule false rules m.silent hr]
    simp only [Engine.silent, trace_tape_silent]
    rfl
  | some r =>
    rw [step_of_resolve verbose rules m r hr, step_of_resolve false rules m.silent r hr,
      apply_rule_silent, trace_tape_silent]
    rfl

theorem next_silent (verbose : Bool) (rules : List rule) (e : Engine) :
    (next verbose rules e).silent = next false rules e.silent := by
  cases e with
  | Running m => exact step_silent verbose rules m
  | Halted m => rfl
  | Failed f m => rfl

theorem steps_silent (verbose : Bool) (rules : List rule) (n : Nat) (e : Engine) :
    (steps verbose rules n e).silent = steps false rules n e.silent := by
  induction n generalizing e with
  | zero => rfl
  | succ n ih => rw [steps, steps, ih, next_silent]

theorem loop_silent (verbose : Bool) (rules : List rule) (fuel : Nat) (m : Machine) :
    (loop verbose rules fuel m).map (fun p => (p.1.silent, p.2)) =
      loop false rules fuel m.silent := by
  induction fuel generalizing m with
  | zero => rfl
  | succ fuel ih =>
    have hs := step_silent verbose rules m
    cases hstep : step verbose rules m with
    | Running m1 =>
      rw [hstep] at hs
      rw [loop_succ_running verbose rules fuel m m1 hstep,
        loop_succ_running false rules fuel m.silent m1.silent hs.symm, ← ih m1]
      cases loop verbose rules fuel m1 <;> rfl
    | Halted m1 =>
      rw [hstep] at hs
      rw [loop_succ_halted verbose rules fuel m m1 hstep,
        loop_succ_halted false rules fuel m.silent m1.silent hs.symm]
      rfl
    | Failed f m1 =>
      rw [hstep] at hs
      rw [loop_succ_failed verbose rules fuel m m1 f hstep,
        loop_succ_failed false rules fuel m.silent m1.silent f hs.symm]
      rfl

/-- C14: the verbose flag has no effect on the engine. For every rule table
and input, after every number of iterations the run with `-v` and the run
without are in the same outcome (running, halted, or failed for the same
reason) with the same tape, head and state; and the two runs of `main` end
for the same fuel with the same exit code, the same diagnostic, the same
number of iterations and the same printed final tape region. -/
theorem verbose_has_no_effect (EOT : Symbol) (rules : List rule) (input : List Symbol)
    (argv_on argv_off : List (List Symbol))
    (hon : parse_args argv_on none false = Args.Parsed (some input) true)
    (hoff : parse_args argv_off none false = Args.Parsed (some input) false) :
    (∀ n : Nat, (steps true rules n (Engine.Running (initial EOT input))).silent =
      (steps false rules n (Engine.Running (initial EOT input))).silent) ∧
    (∀ n : Nat,
      (steps true rules n (Engine.Running (initial EOT input))).machine.tape =
        (steps false rules n (Engine.Running (initial EOT input))).machine.tape ∧
      (steps true rules n (Engine.Running (initial EOT input))).machine.head =
        (steps false rules n (Engine.Running (initial EOT input))).machine.head ∧
      (steps true rules n (Engine.Running (initial EOT input))).machine.state =
        (steps false rules n (Engine.Running (initial EOT input))).machine.state ∧
      (steps true rules n (Engine.Running (initial EOT input))).is_running =
        (steps false rules n (Engine.Running (initial EOT input))).is_running) ∧
    (∀ fuel : Nat, (main fuel EOT rules argv_on).map Exit.observable =
      (main fuel EOT rules argv_off).map Exit.observable) := by
  have hsil : ∀ n : Nat, (steps true rules n (Engine.Running (initial EOT input))).silent =
      (steps false rules n (Engine.Running (initial EOT input))).silent := by
    intro n
    rw [steps_silent true, steps_silent false]
  have hfields : ∀ e1 e2 : Engine, e1.silent = e2.silent →
      e1.machine.tape = e2.machine.tape ∧ e1.machine.head = e2.machine.head ∧
      e1.machine.state = e2.machine.state ∧ e1.is_running = e2.is_running := by
    intro e1 e2 h
    have ht : ∀ e : Engine, e.silent.machine.tape = e.machine.tape := by
      intro e; cases e <;> rfl
    have hh : ∀ e : Engine, e.silent.machine.head = e.machine.head := by
      intro e; cases e <;> rfl
    have hs : ∀ e : Engine, e.silent.machine.state = e.machine.state := by
      intro e; cases e <;> rfl
    have hr : ∀ e : Engine, e.silent.is_running = e.is_running := by
      intro e; cases e <;> rfl
    refine ⟨?_, ?_, ?_, ?_⟩
    · rw [← ht e1, ← ht e2, h]
    · rw [← hh e1, ← hh e2, h]
    · rw [← hs e1, ← hs e2, h]
    · rw [← hr e1, ← hr e2, h]
  refine ⟨hsil, fun n => hfields _ _ (hsil n), ?_⟩
  intro fuel
  have hl := loop_silent true rules fuel (initial EOT input)
  have hinit : (initial EOT input).silent = initial EOT input := rfl
  rw [hinit] at hl
  cases h1 : loop true rules fuel (initial EOT input) with
  | none =>
    rw [h1] at hl
    simp only [Option.map_none'] at hl
    simp only [main, hon, hoff, h1, ← hl, Option.map_none']
  | some p =>
    obtain ⟨en, n⟩ := p
    rw [h1] at hl
    simp only [Option.map_some'] at hl
    have hno := loop_no_output true rules fuel _ _ _ h1 rfl
    cases en with
    | Running m =>
      have := loop_not_running true rules fuel _ _ _ h1
      simp [Engine.is_running] at this
    | Halted m =>
      simp only [Engine.silent] at hl
      rw [main_halted fuel EOT rules argv_on input true m n hon h1,
        main_halted fuel EOT rules argv_off input false m.silent n hoff hl.symm]
      simp only [Option.map_some', Exit.observable, Option.some.injEq, Prod.mk.injEq]
      refine ⟨rfl, rfl, rfl, ?_⟩
      rw [finish_output true m n hno, finish_output false m.silent n rfl]
      rfl
    | Failed f m =>
      simp only [Engine.silent] at hl
      rw [main_loop_failed fuel EOT rules argv_on input true m n f hon h1,
        main_loop_failed fuel EOT rules argv_off input false m.silent n f hoff hl.symm]
      simp only [Option.map_some', Exit.observable, Option.some.injEq, Prod.mk.injEq]
      exact ⟨trivial, trivial, trivial, hno⟩

/-- C14 on the multi-step example: with and without `-v` the run shows the
same exit code, diagnostic, number of iterations and printed region. -/
theorem verbose_has_no_effect_witness :
    (main 2 4 multi_step_rules [opt_v, [97]]).map Exit.observable =
      (main 2 4 multi_step_rules [[97]]).map Exit.observable :=
  (verbose_has_no_effect 4 multi_step_rules [97] [opt_v, [97]] [[97]]
    (by decide) (by decide)).2.2 2

/-! ## Determinism -/

/-- The index the lookup loop stops at is the only index whose rule has the
key with no rule with the key before it. -/
theorem scan_unique (state : Int) (c : Symbol) (rs : List rule) (i : Nat) (r : rule)
    (hr : rs[i]? = some r) (hkey : matches_key state c r)
    (hfirst : ∀ j r1, j < i → rs[j]? = some r1 → ¬ matches_key state c r1) :
    scan state c rs 0 = i := by
  obtain ⟨r0, hr0⟩ := resolve_some_of_mem state c rs ⟨r, List.getElem?_mem hr, hkey⟩
  rcases Nat.lt_trichotomy (scan state c rs 0) i with h | h | h
  · exact absurd (scan_matches state c rs r0 hr0) (hfirst _ r0 h hr0)
  · exact h
  · exact absurd hkey (scan_first state c rs i r h hr)

/-- The relation `Step` is the graph of the function `step`. -/
theorem step_rel_iff (verbose : Bool) (rules : List rule) (m : Machine) (e : Engine) :
    Step verbose rules m e ↔ step verbose rules m = e := by
  constructor
  · intro h
    cases h with
    | no_match hnone =>
      exact step_of_no_rule verbose rules m ((resolve_none_iff _ _ _).mpr hnone)
    | matched i r hr hkey hfirst =>
      have hi := scan_unique _ _ _ i r hr hkey hfirst
      have := step_of_resolve verbose rules m r (by rw [hi]; exact hr)
      rw [hi] at this
      exact this
  · intro h
    subst h
    cases hr : rules[scan m.state (m.tape m.head) rules 0]? with
    | none =>
      rw [step_of_no_rule verbose rules m hr]
      exact Step.no_match ((resolve_none_iff _ _ _).mp hr)
    | some r =>
      rw [step_of_resolve verbose rules m r hr]
      exact Step.matched _ r hr (scan_matches _ _ _ _ hr)
        (fun j r1 hj h1 => scan_first _ _ _ j r1 hj h1)

/-- The engine reached after `n` steps of the relation is the one the
iteration of `step` computes. -/
theorem reaches_steps (verbose : Bool) (rules : List rule) (e0 : Engine) (n : Nat)
    (e : Engine) (h : Reaches verbose rules e0 n e) : steps verbose rules n e0 = e := by
  induction h with
  | start => rfl
  | more n m e _ hstep ih =>
    rw [steps_succ, ih]
    exact (step_rel_iff verbose rules m e).mp hstep

/-- More fuel does not change the result of a loop that has ended. -/
theorem loop_mono (verbose : Bool) (rules : List rule) (fuel d : Nat) :
    ∀ (m : Machine) (p : Engine × Nat), loop verbose rules fuel m = some p →
      loop verbose rules (fuel + d) m = some p := by
  induction fuel with
  | zero => intro m p h; simp [loop] at h
  | succ fuel ih =>
    intro m p h
    rw [show fuel + 1 + d = (fuel + d) + 1 by omega]
    cases hstep : step verbose rules m with
    | Running m1 =>
      rw [loop_succ_running verbose rules fuel m m1 hstep] at h
      rw [loop_succ_running verbose rules (fuel + d) m m1 hstep]
      cases hl : loop verbose rules fuel m1 with
      | none => rw [hl] at h; simp at h
      | some q => rw [hl] at h; rw [ih m1 q hl]; exact h
    | Halted m1 =>
      rw [loop_succ_halted verbose rules fuel m m1 hstep] at h
      rw [loop_succ_halted verbose rules (fuel + d) m m1 hstep]; exact h
    | Failed f m1 =>
      rw [loop_succ_failed verbose rules fuel m m1 f hstep] at h
      rw [loop_succ_failed verbose rules (fuel + d) m m1 f hstep]; exact h

/-- More fuel does not change the result of a run that has ended. -/
theorem main_mono (fuel d : Nat) (EOT : Symbol) (rules : List rule)
    (argv : List (List Symbol)) (x : Exit) (h : main fuel EOT rules argv = some x) :
    main (fuel + d) EOT rules argv = some x := by
  cases hp : parse_args argv none false with
  | Help => simp only [main, hp] at h ⊢; exact h
  | Parsed input verbose =>
    cases input with
    | none => simp only [main, hp] at h ⊢; exact h
    | some input =>
      cases hl : loop verbose rules fuel (initial EOT input) with
      | none => simp [main, hp, hl] at h
      | some p =>
        have hl2 := loop_mono verbose rules fuel d _ p hl
        simp only [main, hp, hl] at h
        simp only [main, hp, hl2]
        exact h

/-- C15: the step relation is functional: a machine has exactly one successor
for a given rule table, the one `step` computes; hence the engine reached
after `n` steps is unique (same states, heads and written symbols), and two
terminating runs of `main` on the same table and arguments end in the same
exit: same output or same failure, same number of iterations, whatever
bound each was given. -/
theorem determinism (verbose : Bool) (rules : List rule) :
    (∀ (m : Machine) (e1 e2 : Engine),
      Step verbose rules m e1 → Step verbose rules m e2 → e1 = e2) ∧
    (∀ m : Machine, Step verbose rules m (step verbose rules m)) ∧
    (∀ (e0 : Engine) (n : Nat) (e1 e2 : Engine),
      Reaches verbose rules e0 n e1 → Reaches verbose rules e0 n e2 → e1 = e2) ∧
    (∀ (EOT : Symbol) (argv : List (List Symbol)) (fuel1 fuel2 : Nat) (x1 x2 : Exit),
      main fuel1 EOT rules argv = some x1 → main fuel2 EOT rules argv = some x2 →
        x1 = x2) := by
  refine ⟨?_, ?_, ?_, ?_⟩
  · intro m e1 e2 h1 h2
    rw [← (step_rel_iff verbose rules m e1).mp h1, ← (step_rel_iff verbose rules m e2).mp h2]
  · intro m
    exact (step_rel_iff verbose rules m _).mpr rfl
  · intro e0 n e1 e2 h1 h2
    rw [← reaches_steps verbose rules e0 n e1 h1, ← reaches_steps verbose rules e0 n e2 h2]
  · intro EOT argv fuel1 fuel2 x1 x2 h1 h2
    rcases Nat.le_total fuel1 fuel2 with h | h
    · obtain ⟨d, rfl⟩ : ∃ d, fuel2 = fuel1 + d := ⟨fuel2 - fuel1, by omega⟩
      have := main_mono fuel1 d EOT rules argv x1 h1
      rw [this] at h2
      injection h2
    · obtain ⟨d, rfl⟩ : ∃ d, fuel1 = fuel2 + d := ⟨fuel1 - fuel2, by omega⟩
      have := main_mono fuel2 d EOT rules argv x2 h2
      rw [this] at h1
      injection h1 with h1
      exact h1.symm

end Machination
